import Mathlib

set_option linter.unusedVariables false
set_option linter.unreachableTactic false
set_option linter.unusedTactic false
set_option linter.unnecessarySeqFocus false

/-!
Verification of the KaTeX-style HTML build pipeline of this repository.

The definitions below are shallow embeddings of the TypeScript sources:

* `buildHTML.ts` (buildExpression, traverseNonSpaceNodes, getTypeOfDomTree,
  makeNullDelimiter, buildGroup, buildHTMLUnbreakable, buildHTML),
* `domTree.ts` (Span/Anchor/SymbolNode/Img, initNode, toMarkup),
* `tree.ts` (DocumentFragment),
* `functions/color.ts`, `functions/href.ts`, `functions/delimsizing.ts`,
  `functions/symbolsOrd.ts`, `functions/symbolsOp.ts`,
* `parseTree.ts`, `parseNode.ts`, `SourceLocation.ts`.

JavaScript numbers are modelled as rationals, JS in-place mutation is
modelled by explicit state passing (details at the passes below), and the
support modules that are not part of this repository snapshot
(buildCommon.js, Options.js, Style.js, delimiter.js, spacingData.js,
buildMathML.js, the Parser) are either modelled from the spec (marked
`Modelled from the spec:`) or abstracted into the parameter record `Prims`
so the theorems hold for every implementation of the missing primitives.
-/

/-- Parse mode: every parse node carries `mode ∈ {math, text}` (parseNode.ts). -/
inductive Mode where
  | math
  | text
deriving DecidableEq, Repr

/-- The four style strings accepted by the `styling` parse node
(`StyleStr` in types.js; used by `styleMap` in buildHTML.ts). -/
inductive StyleStr where
  | display
  | text
  | script
  | scriptscript
deriving DecidableEq, Repr

/-- Modelled from the spec: `Style.js` is not part of the snapshot. §3.5 and
the glossary list exactly four math styles DISPLAY/TEXT/SCRIPT/SCRIPTSCRIPT. -/
inductive KStyle where
  | DISPLAY
  | TEXT
  | SCRIPT
  | SCRIPTSCRIPT
deriving DecidableEq, Repr

/-- Modelled from the spec: the glossary says the "partial style (mtight)"
is script/scriptscript style; `Style.isTight()` is used by `initNode`. -/
def KStyle.isTight : KStyle → Bool
  | .SCRIPT => true
  | .SCRIPTSCRIPT => true
  | _ => false

/-- The `styleMap` from buildHTML.ts, mapping the `styling` node's style
string to a `Style`. -/
def styleMap : StyleStr → KStyle
  | .display => .DISPLAY
  | .text => .TEXT
  | .script => .SCRIPT
  | .scriptscript => .SCRIPTSCRIPT

/-- Modelled from the spec: `Options.js` is not part of the snapshot. §3.5
describes an immutable value carrying the current style, size level (1..11),
color, and a size multiplier; only these fields are consulted by the
embedded sources. -/
structure Options where
  style : KStyle
  size : Nat
  sizeMultiplier : ℚ
  color : Option String := none
deriving DecidableEq, Repr

/-- Modelled from the spec: the size-level to size-multiplier table is
font-metric data external to the snapshot (§2, §3.5). -/
def sizeMultiplierOfSize (n : Nat) : ℚ :=
  [(1:ℚ)/2, 3/5, 7/10, 4/5, 9/10, 1, 6/5, 36/25, 216/125, 1037/500, 311/125].getD (n - 1) 1

/-- Modelled from the spec: `Options.havingSize(n)` returns a new value at
size level `n` (§3.5 "Every derived method returns a new value"). -/
def Options.havingSize (o : Options) (n : Nat) : Options :=
  { o with size := n, sizeMultiplier := sizeMultiplierOfSize n }

/-- Modelled from the spec: `Options.havingStyle(s)` returns a new value in
style `s` (§3.5). -/
def Options.havingStyle (o : Options) (s : KStyle) : Options :=
  { o with style := s }

/-- Modelled from the spec: `Options.withColor(c)` returns a new value with
the given color (§3.5). -/
def Options.withColor (o : Options) (c : String) : Options :=
  { o with color := some c }

/-- Modelled from the spec: `Options.getColor()` yields the current color
applied by `initNode` to a node's inline style. -/
def Options.getColor (o : Options) : Option String :=
  o.color

/-- Modelled from the spec: `Options.sizingClasses(base)`, the CSS class list
a size-changing wrapper span receives in `buildGroup`; the list's content is
not consulted by any theorem below. -/
def Options.sizingClasses (o : Options) (baseOptions : Options) : List String :=
  if baseOptions.size ≠ o.size then
    ["sizing", "reset-size" ++ toString baseOptions.size, "size" ++ toString o.size]
  else []

/-- Modelled from the spec: `Options.baseSizingClasses()`, used by
`makeNullDelimiter`; content not consulted by any theorem below. -/
def Options.baseSizingClasses (o : Options) : List String :=
  if o.size ≠ 6 then ["sizing", "reset-size" ++ toString o.size, "size6"] else []

/-- A CSS length measurement as found in the spacing tables
(`Measurement` in units.js): a number with a unit. -/
structure Measurement where
  number : ℚ
  unit : String
deriving DecidableEq, Repr

/-- The inline-style fields consulted or written by the embedded sources:
`height` and `verticalAlign` hold an `em` value (the source stores the
string `x + "em"`; we keep the rational `x`), `color` is set by `initNode`,
and `glue` records the width and options a glue span was built with (the
source stores `calculateSize(space, options) + "em"` in `marginRight`;
`calculateSize` is outside the snapshot, so the measurement and the options
are kept symbolically). -/
structure CssStyle where
  height : Option ℚ := none
  verticalAlign : Option ℚ := none
  color : Option String := none
  glue : Option (Measurement × Options) := none
deriving DecidableEq, Repr

/-- The `isMiddle` side channel of delimsizing.ts: `{delim, options}`
recorded on the span emitted for `\middle`. -/
structure IsMiddle where
  delim : String
  options : Options
deriving DecidableEq, Repr

/-- The HTML dom-tree nodes of domTree.ts and tree.ts that the embedded
builders construct: `Span` (with the delimsizing `isMiddle` side channel as
an optional field), `Anchor`, `SymbolNode`, and `DocumentFragment`.
Every variant carries the observable record of §3.3 that the sources read:
`classes`, `height`, `depth`, `maxFontSize`, `style`. -/
inductive HDom where
  | span (classes : List String) (children : List HDom)
      (height depth maxFontSize : ℚ) (style : CssStyle)
      (attributes : List (String × String)) (isMiddle : Option IsMiddle)
  | anchor (classes : List String) (children : List HDom)
      (height depth maxFontSize : ℚ) (style : CssStyle)
      (attributes : List (String × String))
  | symbolNode (text : String) (classes : List String)
      (height depth italic : ℚ) (style : CssStyle)
  | frag (children : List HDom) (height depth maxFontSize : ℚ)

namespace HDom

/-- The `classes` array of a node (a `DocumentFragment`'s is always `[]`,
as in tree.ts). -/
def classes : HDom → List String
  | .span cls _ _ _ _ _ _ _ => cls
  | .anchor cls _ _ _ _ _ _ => cls
  | .symbolNode _ cls _ _ _ _ => cls
  | .frag _ _ _ _ => []

/-- The `height` field of a node. -/
def height : HDom → ℚ
  | .span _ _ h _ _ _ _ _ => h
  | .anchor _ _ h _ _ _ _ => h
  | .symbolNode _ _ h _ _ _ => h
  | .frag _ h _ _ => h

/-- The `depth` field of a node. -/
def depth : HDom → ℚ
  | .span _ _ _ d _ _ _ _ => d
  | .anchor _ _ _ d _ _ _ => d
  | .symbolNode _ _ _ d _ _ => d
  | .frag _ _ d _ => d

/-- The `maxFontSize` field of a node (a `SymbolNode`'s is 0). -/
def maxFontSize : HDom → ℚ
  | .span _ _ _ _ m _ _ _ => m
  | .anchor _ _ _ _ m _ _ => m
  | .symbolNode _ _ _ _ _ _ => 0
  | .frag _ _ _ m => m

/-- The children of a node (a `SymbolNode` has none). -/
def children : HDom → List HDom
  | .span _ ch _ _ _ _ _ _ => ch
  | .anchor _ ch _ _ _ _ _ => ch
  | .symbolNode _ _ _ _ _ _ => []
  | .frag ch _ _ _ => ch

/-- The inline style record of a node (a `DocumentFragment`'s style is
never used, tree.ts). -/
def style : HDom → CssStyle
  | .span _ _ _ _ _ st _ _ => st
  | .anchor _ _ _ _ _ st _ => st
  | .symbolNode _ _ _ _ _ st => st
  | .frag _ _ _ _ => {}

/-- `hasClass` from domTree.ts: `utils.contains(this.classes, className)`. -/
def hasClass (n : HDom) (className : String) : Bool :=
  n.classes.contains className

/-- The `isMiddle` property read by the leftright builder (only ever set on
a span; reading it on any other node yields `undefined`). -/
def isMiddleOf : HDom → Option IsMiddle
  | .span _ _ _ _ _ _ _ im => im
  | _ => none

/-- Overwrite the `classes` array of a node (`node.classes[0] = …`,
`tagChild.classes = ["tag"]` mutate this field in place in the source). -/
def setClasses : HDom → List String → HDom
  | .span _ ch h d m st a im, cls => .span cls ch h d m st a im
  | .anchor _ ch h d m st a, cls => .anchor cls ch h d m st a
  | .symbolNode t _ h d i st, cls => .symbolNode t cls h d i st
  | .frag ch h d m, _ => .frag ch h d m

/-- Replace the children list of a node, keeping every other field (the
source mutates the `children` array in place). -/
def withChildren : HDom → List HDom → HDom
  | .span cls _ h d m st a im, ch => .span cls ch h d m st a im
  | .anchor cls _ h d m st a, ch => .anchor cls ch h d m st a
  | .symbolNode t cls h d i st, _ => .symbolNode t cls h d i st
  | .frag _ h d m, ch => .frag ch h d m

/-- `setAttribute` of domTree.ts, on a span or anchor; modelled as an
association list where a later entry wins. -/
def setAttribute : HDom → String → String → HDom
  | .span cls ch h d m st a im, k, v => .span cls ch h d m st (a ++ [(k, v)]) im
  | .anchor cls ch h d m st a, k, v => .anchor cls ch h d m st (a ++ [(k, v)])
  | n, _, _ => n

/-- Set `style.height` and `style.verticalAlign` (both in em), as the strut
adjustments in buildHTML.ts do. -/
def setStyleExtent : HDom → ℚ → ℚ → HDom
  | .span cls ch h d m st a im, hv, va =>
      .span cls ch h d m { st with height := some hv, verticalAlign := some va } a im
  | .anchor cls ch h d m st a, hv, va =>
      .anchor cls ch h d m { st with height := some hv, verticalAlign := some va } a
  | .symbolNode t cls h d i st, hv, va =>
      .symbolNode t cls h d i { st with height := some hv, verticalAlign := some va }
  | .frag ch h d m, _, _ => .frag ch h d m

/-- Attach the delimsizing `isMiddle` side channel
(`middleDelim.isMiddle = isMiddle` — a dynamic property write on the
`DomSpan` returned by `delimiter.sizedDelim`). -/
def setIsMiddle : HDom → IsMiddle → HDom
  | .span cls ch h d m st a _, im => .span cls ch h d m st a (some im)
  | n, _ => n

end HDom

/-- Modelled from the spec: `sizeElementFromChildren` of the missing
buildCommon.js — a container's height is the maximum of its children's
heights (§3.3 "height + depth equals the box's vertical extent"). -/
def maxHeight (children : List HDom) : ℚ :=
  children.foldl (fun a c => max a c.height) 0

/-- Modelled from the spec: maximum depth of the children, see `maxHeight`. -/
def maxDepth (children : List HDom) : ℚ :=
  children.foldl (fun a c => max a c.depth) 0

/-- Modelled from the spec: maximum `maxFontSize` of the children. -/
def maxFS (children : List HDom) : ℚ :=
  children.foldl (fun a c => max a c.maxFontSize) 0

/-- `initNode` of domTree.ts applied to a class list: when options are given
and the style is tight, `"mtight"` is pushed onto the classes. -/
def initClasses (classes : List String) (options : Option Options) : List String :=
  classes ++ (match options with
    | some o => if o.style.isTight then ["mtight"] else []
    | none => [])

/-- `initNode` of domTree.ts applied to the style record: when options carry
a color, `style.color` is set. -/
def initStyle (st : CssStyle) (options : Option Options) : CssStyle :=
  match options with
  | some o => match o.getColor with
    | some c => { st with color := some c }
    | none => st
  | none => st

/-- Modelled from the spec: `buildCommon.makeSpan(classes, children,
options, style)` (buildCommon.js is outside the snapshot) — a `Span` built
through `initNode` (domTree.ts, in the snapshot) and sized from its
children (§3.3, §4.5.6 "Compute height and depth of this chunk"). -/
def makeSpan (classes : List String := []) (children : List HDom := [])
    (options : Option Options := none) (style : CssStyle := {}) : HDom :=
  .span (initClasses classes options) children
    (maxHeight children) (maxDepth children) (maxFS children)
    (initStyle style options) [] none

/-- Modelled from the spec: `buildCommon.makeFragment(children)` — a
`DocumentFragment` (tree.ts) sized from its children. -/
def makeFragment (children : List HDom) : HDom :=
  .frag children (maxHeight children) (maxDepth children) (maxFS children)

/-- Modelled from the spec: `buildCommon.makeAnchor(href, classes, children,
options)` — an `Anchor` (domTree.ts, in the snapshot: `initNode` plus
`setAttribute("href", href)`), sized from its children. -/
def makeAnchor (href : String) (classes : List String) (children : List HDom)
    (options : Options) : HDom :=
  .anchor (initClasses classes (some options)) children
    (maxHeight children) (maxDepth children) (maxFS children)
    (initStyle {} (some options)) [("href", href)]

/-- Modelled from the spec: `buildCommon.makeGlue(measurement, options)` —
"insert a glue span of that width" (§4.5.2): an `mspace` span recording the
measurement and the options it was built with (see `CssStyle.glue`). -/
def makeGlue (space : Measurement) (options : Options) : HDom :=
  match makeSpan ["mspace"] [] (some options) {} with
  | .span cls ch h d m st a im =>
      .span cls ch h d m { st with glue := some (space, options) } a im
  | n => n

/-- `makeNullDelimiter` from buildHTML.ts: a span with the given classes,
`"nulldelimiter"` and the base sizing classes (note the source calls
`makeSpan` with no options argument). -/
def makeNullDelimiter (options : Options) (classes : List String) : HDom :=
  makeSpan (classes ++ (["nulldelimiter"] ++ options.baseSizingClasses)) [] none {}

/-- The `DomEnum` of buildHTML.ts: the eight math atom classes a dom node's
first class may carry. -/
inductive DomType where
  | mord
  | mop
  | mbin
  | mrel
  | mopen
  | mclose
  | mpunct
  | minner
deriving DecidableEq, Repr

/-- The class string of a `DomType`. -/
def DomType.str : DomType → String
  | .mord => "mord"
  | .mop => "mop"
  | .mbin => "mbin"
  | .mrel => "mrel"
  | .mopen => "mopen"
  | .mclose => "mclose"
  | .mpunct => "mpunct"
  | .minner => "minner"

/-- The lookup `DomEnum[s] || null` of buildHTML.ts. -/
def domTypeOf : String → Option DomType
  | "mord" => some .mord
  | "mop" => some .mop
  | "mbin" => some .mbin
  | "mrel" => some .mrel
  | "mopen" => some .mopen
  | "mclose" => some .mclose
  | "mpunct" => some .mpunct
  | "minner" => some .minner
  | _ => none

/-- `getTypeOfDomTree(node)` of buildHTML.ts as the spacing pass calls it
(with no `side` argument): `DomEnum[node.classes[0]] || null`. -/
def getTypeOfDomTree (node : HDom) : Option DomType :=
  match node.classes.head? with
  | some s => domTypeOf s
  | none => none

/-- `binLeftCanceller` of buildHTML.ts. -/
def binLeftCanceller : List String :=
  ["leftmost", "mbin", "mopen", "mrel", "mop", "mpunct"]

/-- `binRightCanceller` of buildHTML.ts. -/
def binRightCanceller : List String :=
  ["rightmost", "mrel", "mclose", "mpunct"]

/-- `utils.contains(list, elt)` applied to the possibly-`undefined`
`classes[0]` (an `undefined` element is contained in neither list). -/
def optContains (l : List String) : Option String → Bool
  | some s => l.contains s
  | none => false

/-- The JS assignment `classes[0] = c`: replaces the first element, and on
an empty array creates it. -/
def setClass0 (classes : List String) (c : String) : List String :=
  match classes with
  | [] => [c]
  | _ :: rest => c :: rest

/-- One visit of the bin-cancellation callback of `buildExpression`
(buildHTML.ts): reading `prev.classes[0]` and `node.classes[0]`, it rewrites
`prev` to `mord` when `prev` is an `mbin` followed by a right canceller, else
rewrites `node` to `mord` when `node` is an `mbin` preceded by a left
canceller. Returns the updated `(prev, node)` class arrays. -/
def cancelStep (prev node : List String) : List String × List String :=
  let prevType := prev.head?
  let ty := node.head?
  if prevType = some "mbin" ∧ optContains binRightCanceller ty then
    (setClass0 prev "mord", node)
  else if ty = some "mbin" ∧ optContains binLeftCanceller prevType then
    (prev, setClass0 node "mord")
  else (prev, node)

/-- The bin-cancellation pass of `traverseNonSpaceNodes` on the flattened
(traversal-order) list of class arrays.  The JS traversal shares one
mutable `prev` record across the recursion into DocumentFragments and
Anchors, skips `mspace` nodes, and mutates `classes[0]` in place; since a
visited node's classes are only written while it is the current or the
previous node of a visit, the pass is equivalently this state-passing
recursion, which returns the finalized value of the incoming `prev`
together with the finalized list. -/
def cancelRun : List String → List (List String) → List String × List (List String)
  | prev, [] => (prev, [])
  | prev, c :: rest =>
    if c.head? = some "mspace" then
      let r := cancelRun prev rest
      (r.1, c :: r.2)
    else
      let s := cancelStep prev c
      let r := cancelRun s.2 rest
      (s.1, r.1 :: r.2)

/-- The spacing callback of `buildExpression` (buildHTML.ts): for
`(node, prev)` it looks up the atom types of both; when both are non-null
it consults `tightSpacings` when `node` has class `mtight`, else
`spacings`, and returns the glue to insert after `prev` when the table has
an entry. -/
def glueCallback (spacings tightSpacings : DomType → DomType → Option Measurement)
    (glueOptions : Options) (node prev : HDom) : Option HDom :=
  let prevType := getTypeOfDomTree prev
  let ty := getTypeOfDomTree node
  match prevType, ty with
  | some a, some b =>
    (if node.hasClass "mtight" then tightSpacings a b else spacings a b).map
      (fun space => makeGlue space glueOptions)
  | _, _ => none

/-- The spacing pass of `traverseNonSpaceNodes` on the flattened list.  The
JS `prev.insertAfter` closure splices the returned glue into the array
holding `prev` right after it, and the inserted glue is not itself visited;
equivalently, each visited node expands to itself plus the glue inserted
after it.  `glueRun cb prev l` returns the expansion of `prev` (the glue
the very first visit may produce is unshifted in the source, which the
caller `realGroupPasses` reproduces) and the expansion of every element of
`l` in order; `mspace` nodes are skipped (their expansion is themselves). -/
def glueRun (cb : HDom → HDom → Option HDom) :
    HDom → List HDom → List HDom × List (List HDom)
  | prev, [] => ([prev], [])
  | prev, c :: rest =>
    if c.classes.head? = some "mspace" then
      let r := glueRun cb prev rest
      (r.1, [c] :: r.2)
    else
      let r := glueRun cb c rest
      match cb c prev with
      | some g => ([prev, g], r.1 :: r.2)
      | none => ([prev], r.1 :: r.2)

/-- The traversal order of `traverseNonSpaceNodes` (buildHTML.ts): a
DocumentFragment or an Anchor (`checkPartialGroup`) is descended into, every
other node is visited in place. -/
def flatL : List HDom → List HDom
  | [] => []
  | .frag ch h d m :: rest =>
      flatL ch ++ flatL rest
  | .anchor cls ch h d m st a :: rest =>
      flatL ch ++ flatL rest
  | n :: rest => n :: flatL rest

/-- Write the finalized class arrays of the bin-cancellation pass back onto
the forest, in traversal order: partial groups (fragments, anchors) are
descended into, every other node consumes one entry.  Returns the rebuilt
forest and the unconsumed entries. -/
def assignForest : List HDom → List (List String) → List HDom × List (List String)
  | [], cs => ([], cs)
  | .frag ch h d m :: rest, cs =>
      let a := assignForest ch cs
      let b := assignForest rest a.2
      (.frag a.1 h d m :: b.1, b.2)
  | .anchor cls ch h d m st at_ :: rest, cs =>
      let a := assignForest ch cs
      let b := assignForest rest a.2
      (.anchor cls a.1 h d m st at_ :: b.1, b.2)
  | n :: rest, [] => (n :: rest, [])
  | n :: rest, c :: cs =>
      let b := assignForest rest cs
      (n.setClasses c :: b.1, b.2)

/-- Write the expansions of the spacing pass back onto the forest, in
traversal order: partial groups are descended into (the glue a
`prev.insertAfter` splices into a fragment's children stays inside that
fragment), every other node is replaced by its expansion. -/
def expandForest : List HDom → List (List HDom) → List HDom × List (List HDom)
  | [], es => ([], es)
  | .frag ch h d m :: rest, es =>
      let a := expandForest ch es
      let b := expandForest rest a.2
      (.frag a.1 h d m :: b.1, b.2)
  | .anchor cls ch h d m st at_ :: rest, es =>
      let a := expandForest ch es
      let b := expandForest rest a.2
      (.anchor cls a.1 h d m st at_ :: b.1, b.2)
  | n :: rest, [] => (n :: rest, [])
  | n :: rest, e :: es =>
      let b := expandForest rest es
      (e ++ b.1, b.2)

/-- The class of the left or right dummy sentinel span:
`surrounding[i] || "leftmost"` / `"rightmost"` (buildHTML.ts). -/
def surrClass (s : Option DomType) (dflt : String) : String :=
  match s with
  | some t => t.str
  | none => dflt

/-- The two passes `buildExpression` runs on a real group (buildHTML.ts
lines 97-132): build the sentinel spans, run bin cancellation (first
`traverseNonSpaceNodes`), then run spacing insertion (second
`traverseNonSpaceNodes`) with `glueOptions`.  The sentinel is pushed and
popped by each traversal, so class rewrites to it carry over from the first
pass to the second, which `cancelStage` makes explicit. -/
def cancelStage (groups : List HDom) (options : Options)
    (surrounding : Option DomType × Option DomType) :
    List HDom × HDom × HDom :=
  let dummyPrev := makeSpan [surrClass surrounding.1 "leftmost"] [] (some options) {}
  let dummyNext := makeSpan [surrClass surrounding.2 "rightmost"] [] (some options) {}
  let flatCs := (flatL groups).map HDom.classes ++ [dummyNext.classes]
  let r := cancelRun dummyPrev.classes flatCs
  let groups1 := (assignForest groups r.2.dropLast).1
  (groups1, dummyPrev.setClasses r.1, dummyNext.setClasses (r.2.getLastD dummyNext.classes))

/-- The spacing pass stage on the cancellation stage's output.  The glue the
initial visit may return has no `insertAfter` yet and is unshifted; the
source unshifts it into the array holding the first visited node, which at
the flattened level coincides with prepending it to the whole list except
when an explicit `mspace` in an enclosing array precedes a first visited
node that sits inside a partial group — `spacing_insertion` therefore
assumes the flattened cancellation output does not start with an `mspace`
(no builder of this snapshot emits one before this pass runs). -/
def realGroupPasses (spacings tightSpacings : DomType → DomType → Option Measurement)
    (groups : List HDom) (options glueOptions : Options)
    (surrounding : Option DomType × Option DomType) : List HDom :=
  let s := cancelStage groups options surrounding
  let flat1 := flatL s.1 ++ [s.2.2]
  let r := glueRun (glueCallback spacings tightSpacings glueOptions) s.2.1 flat1
  r.1.drop 1 ++ (expandForest s.1 r.2.dropLast).1

/-- Spacing insertion as the spec states it (C2), directly on the
traversal-order list: for each adjacent pair of visited (non-`mspace`)
nodes `(prev, cur)`, when the called-back lookup yields a glue span it is
inserted between them (right after `prev`, in front of any explicit spaces
standing between the pair); the pending previous node is emitted first. -/
def specSpacing (cb : HDom → HDom → Option HDom) (prev : HDom)
    (l : List HDom) : List HDom :=
  match h : l.dropWhile (fun n => n.classes.head? == some "mspace") with
  | [] => prev :: l
  | nxt :: rest =>
      prev :: ((cb nxt prev).toList ++
        l.takeWhile (fun n => n.classes.head? == some "mspace") ++
        specSpacing cb nxt rest)
termination_by l.length
decreasing_by
  have h1 : (l.dropWhile (fun n => n.classes.head? == some "mspace")).length ≤ l.length :=
    List.Sublist.length_le (List.dropWhile_sublist _)
  rw [h] at h1
  simp at h1
  omega

/-- The part of `specSpacing`'s output up to and including the glue the
first visited pair may produce: the pending previous node, followed by the
glue when the first non-`mspace` element of the list yields one. -/
def specSpacingHead (cb : HDom → HDom → Option HDom) (prev : HDom)
    (l : List HDom) : List HDom :=
  match l.dropWhile (fun n => n.classes.head? == some "mspace") with
  | [] => [prev]
  | nxt :: _ => prev :: (cb nxt prev).toList

/-- The rest of `specSpacing`'s output after `specSpacingHead`: the skipped
explicit spaces followed by the recursive spacing of the remainder. -/
def specSpacingTail (cb : HDom → HDom → Option HDom) (prev : HDom)
    (l : List HDom) : List HDom :=
  match l.dropWhile (fun n => n.classes.head? == some "mspace") with
  | [] => l
  | nxt :: rest =>
      l.takeWhile (fun n => n.classes.head? == some "mspace") ++
        specSpacing cb nxt rest

/-- The parse-node variants (parseNode.ts) for which this snapshot
registers an html builder (color.ts, delimsizing.ts, href.ts,
symbolsOrd.ts, symbolsOp.ts), plus the `sizing`, `styling` and `tag`
variants consulted by buildHTML.ts, plus a stand-in for every other
variant (`other`), whose builder lookup fails in `buildGroup`. -/
inductive ParseNode where
  | atom (family : String) (mode : Mode) (text : String)
  | mathord (mode : Mode) (text : String)
  | textord (mode : Mode) (text : String)
  | color (mode : Mode) (color : String) (body : List ParseNode)
  | href (mode : Mode) (href : String) (body : List ParseNode)
  | delimsizing (mode : Mode) (size : Nat) (mclass : String) (delim : String)
  | leftright (mode : Mode) (left right : String) (body : List ParseNode)
  | middle (mode : Mode) (delim : String)
  | sizing (mode : Mode) (size : Nat) (body : List ParseNode)
  | styling (mode : Mode) (style : StyleStr) (body : List ParseNode)
  | tag (body : List ParseNode) (tag : List ParseNode)
  | other (ty : String)

/-- The `mode` field of a parse node. -/
def ParseNode.modeOf : ParseNode → Mode
  | .atom _ m _ => m
  | .mathord m _ => m
  | .textord m _ => m
  | .color m _ _ => m
  | .href m _ _ => m
  | .delimsizing m _ _ _ => m
  | .leftright m _ _ _ => m
  | .middle m _ => m
  | .sizing m _ _ => m
  | .styling m _ _ => m
  | .tag _ _ => .text
  | .other _ => .math

/-- The `type` tag string of a parse node (parseNode.ts). -/
def ParseNode.typeOf : ParseNode → String
  | .atom _ _ _ => "atom"
  | .mathord _ _ => "mathord"
  | .textord _ _ => "textord"
  | .color _ _ _ => "color"
  | .href _ _ _ => "href"
  | .delimsizing _ _ _ _ => "delimsizing"
  | .leftright _ _ _ _ => "leftright"
  | .middle _ _ => "middle"
  | .sizing _ _ _ => "sizing"
  | .styling _ _ _ => "styling"
  | .tag _ _ => "tag"
  | .other ty => ty

/-- The `text` field of a symbol parse node (empty for the rest). -/
def ParseNode.textOf : ParseNode → String
  | .atom _ _ t => t
  | .mathord _ t => t
  | .textord _ t => t
  | _ => ""

/-- The single error kinds the sources throw: `ParseError` (ParseError.js),
`TypeError` (parseTree.ts line 18) and plain `Error` (the internal
assertion helpers). -/
inductive ErrKind where
  | parseError (msg : String)
  | typeError (msg : String)
  | jsError (msg : String)
deriving DecidableEq, Repr

/-- Whether an error is a `ParseError`. -/
def ErrKind.isParseError : ErrKind → Bool
  | .parseError _ => true
  | _ => false

/-- The primitives of the support modules that are not part of this
repository snapshot, as parameters: `buildCommon.makeOrd` and
`buildCommon.mathsym` (symbolsOrd.ts / symbolsOp.ts call them),
`delimiter.sizedDelim` and `delimiter.leftRightDelim` (delimsizing.ts),
the registered html builders of the `sizing` and `styling` functions, and
the two spacing tables of spacingData.js (§6: external data tables).
Every theorem about the builders holds for every choice of these. -/
structure Prims where
  makeOrd : String → Mode → Options → String → HDom
  mathsym : String → Mode → Options → List String → HDom
  sizedDelim : String → Nat → Options → Mode → List String → HDom
  leftRightDelim : String → ℚ → ℚ → Options → Mode → List String → HDom
  buildSizing : Nat → List ParseNode → Options → HDom
  buildStyling : StyleStr → List ParseNode → Options → HDom
  spacings : DomType → DomType → Option Measurement
  tightSpacings : DomType → DomType → Option Measurement

/-- `glueOptions` of `buildExpression` (buildHTML.ts lines 84-95): when the
whole expression is a single `sizing` or `styling` node (`checkNodeType`),
the options are re-derived from its size or style. -/
def glueOptionsOf (expression : List ParseNode) (options : Options) : Options :=
  match expression with
  | [.sizing _ size _] => options.havingSize size
  | [.styling _ style _] => options.havingStyle (styleMap style)
  | _ => options

/-- The pure tail of the `leftright` html builder (delimsizing.ts lines
188-255), applied to the built inner expression: compute `innerHeight` and
`innerDepth` as the maxima over the non-middle boxes scaled by
`options.sizeMultiplier`, pick the left and right delimiters with
`delimiter.leftRightDelim` (a null delimiter for `"."`), re-size every box
marked `isMiddle` with the options recorded on it, and wrap everything in
an `minner` span. -/
def leftrightPost (P : Prims) (left right : String) (mode : Mode)
    (options : Options) (inner : List HDom) : HDom :=
  let hadMiddle := inner.any (fun n => n.isMiddleOf.isSome)
  let innerHeight :=
    (inner.foldl (fun a n => if n.isMiddleOf.isSome then a else max a n.height) 0) *
      options.sizeMultiplier
  let innerDepth :=
    (inner.foldl (fun a n => if n.isMiddleOf.isSome then a else max a n.depth) 0) *
      options.sizeMultiplier
  let leftDelim :=
    if left = "." then makeNullDelimiter options ["mopen"]
    else P.leftRightDelim left innerHeight innerDepth options mode ["mopen"]
  let mid :=
    if hadMiddle then
      inner.map (fun n =>
        match n.isMiddleOf with
        | some im => P.leftRightDelim im.delim innerHeight innerDepth im.options mode []
        | none => n)
    else inner
  let rightDelim :=
    if right = "." then makeNullDelimiter options ["mclose"]
    else P.leftRightDelim right innerHeight innerDepth options mode ["mclose"]
  makeSpan ["minner"] (leftDelim :: (mid ++ [rightDelim])) (some options) {}

/-- The `middle` html builder (delimsizing.ts lines 301-318): a null
delimiter for `"."`, else `delimiter.sizedDelim(delim, 1, …)` with the
`isMiddle` record `{delim, options}` attached. -/
def middleBuilder (P : Prims) (delim : String) (mode : Mode) (options : Options) : HDom :=
  if delim = "." then makeNullDelimiter options []
  else (P.sizedDelim delim 1 options mode []).setIsMiddle ⟨delim, options⟩

/-- The `delimsizing` html builder (delimsizing.ts lines 95-105). -/
def delimsizingBuilder (P : Prims) (delim : String) (size : Nat) (mclass : String)
    (mode : Mode) (options : Options) : HDom :=
  if delim = "." then makeSpan [mclass] [] none {}
  else P.sizedDelim delim size options mode [mclass]

mutual

/-- `buildGroup` of buildHTML.ts: dispatch on the node type to the
registered html builder (`groupBuilders`); an unregistered type throws
`ParseError("Got group of unknown type: '…'")`; a `null` group yields an
empty span; when `baseOptions` is given and the size changed, the result is
wrapped in a sizing span and its height and depth are scaled by the
multiplier ratio. -/
def buildGroup (P : Prims) (group : Option ParseNode) (options : Options)
    (baseOptions : Option Options) : Except ErrKind HDom :=
  match group with
  | none => .ok (makeSpan [] [] none {})
  | some g =>
    let built : Except ErrKind HDom :=
      match g with
      | .atom family _ text =>
          -- symbolsOp.ts: buildCommon.mathsym(text, mode, options, ["m" + family])
          .ok (P.mathsym text g.modeOf options ["m" ++ family])
      | .mathord _ text => .ok (P.makeOrd text g.modeOf options "mathord")
      | .textord _ text => .ok (P.makeOrd text g.modeOf options "textord")
      | .color _ c body =>
          -- color.ts htmlBuilder: build the body as a partial group under
          -- withColor, wrap the result in a DocumentFragment
          match buildExpression P body (options.withColor c) false (none, none) with
          | .error e => .error e
          | .ok elements => .ok (makeFragment elements)
      | .href _ url body =>
          -- href.ts htmlBuilder
          match buildExpression P body options false (none, none) with
          | .error e => .error e
          | .ok elements => .ok (makeAnchor url [] elements options)
      | .delimsizing _ size mclass delim =>
          .ok (delimsizingBuilder P delim size mclass g.modeOf options)
      | .leftright _ left right body =>
          -- delimsizing.ts leftright htmlBuilder: build the inner
          -- expression as a real group surrounded by mopen/mclose
          match buildExpression P body options true (some .mopen, some .mclose) with
          | .error e => .error e
          | .ok inner => .ok (leftrightPost P left right g.modeOf options inner)
      | .middle _ delim => .ok (middleBuilder P delim g.modeOf options)
      | .sizing _ size body => .ok (P.buildSizing size body options)
      | .styling _ style body => .ok (P.buildStyling style body options)
      | _ => .error (.parseError ("Got group of unknown type: '" ++ g.typeOf ++ "'"))
    match built with
    | .error e => .error e
    | .ok groupNode =>
      match baseOptions with
      | some base =>
        if options.size ≠ base.size then
          let wrapped := makeSpan (options.sizingClasses base) [groupNode] (some options) {}
          let multiplier := options.sizeMultiplier / base.sizeMultiplier
          .ok (match wrapped with
            | .span cls ch h d m st a im =>
                .span cls ch (h * multiplier) (d * multiplier) m st a im
            | n => n)
        else .ok groupNode
      | none => .ok groupNode
termination_by (sizeOf group, 0)

/-- The first loop of `buildExpression` (buildHTML.ts lines 66-76): build
every child with `buildGroup`, splicing the children of a returned
`DocumentFragment` inline. -/
def buildGroups (P : Prims) (expression : List ParseNode) (options : Options) :
    Except ErrKind (List HDom) :=
  match expression with
  | [] => .ok []
  | n :: rest =>
    match buildGroup P (some n) options none with
    | .error e => .error e
    | .ok output =>
      match buildGroups P rest options with
      | .error e => .error e
      | .ok groups =>
        .ok ((match output with
          | .frag ch _ _ _ => ch
          | o => [o]) ++ groups)
termination_by (sizeOf expression, 0)
decreasing_by
  all_goals first
    | decreasing_tactic
    | (apply Prod.Lex.left
       have hr : 0 < sizeOf rest := by cases rest <;> simp_arith
       simp_arith
       omega)

/-- `buildExpression` of buildHTML.ts: build the groups; a partial group
(`isRealGroup` false) returns them unchanged; a real group derives
`glueOptions`, then runs the bin-cancellation and spacing traversals with
the two sentinel spans. -/
def buildExpression (P : Prims) (expression : List ParseNode) (options : Options)
    (isRealGroup : Bool) (surrounding : Option DomType × Option DomType) :
    Except ErrKind (List HDom) :=
  match buildGroups P expression options with
  | .error e => .error e
  | .ok groups =>
    if isRealGroup then
      .ok (realGroupPasses P.spacings P.tightSpacings groups options
        (glueOptionsOf expression options) surrounding)
    else .ok groups
termination_by (sizeOf expression, 1)

end

/-- `buildHTMLUnbreakable(children, options)` of buildHTML.ts: wrap the
chunk in a `"base"` span, then unshift a strut whose style height is
`(body.height + body.depth) em` and whose vertical-align is
`-body.depth em` (the strut is added after the span was sized, so it does
not change the span's height or depth fields). -/
def buildHTMLUnbreakable (children : List HDom) (options : Options) : HDom :=
  let body := makeSpan ["base"] children (some options) {}
  let strut := (makeSpan ["strut"] [] none {}).setStyleExtent
    (body.height + body.depth) (-body.depth)
  body.withChildren (strut :: body.children)

/-- Whether a built node opens a line-break opportunity in `buildHTML`
(class `mbin`, `mrel` or `allowbreak`). -/
def breakClass (e : HDom) : Bool :=
  e.hasClass "mbin" || e.hasClass "mrel" || e.hasClass "allowbreak"

/-- The post-operator glue condition of `buildHTML`'s inner `while`:
the following node is an `mspace` that is not a `newline`. -/
def postOpGlue (e : HDom) : Bool :=
  e.hasClass "mspace" && !e.hasClass "newline"

/-- The chunking loop of `buildHTML` (buildHTML.ts lines 333-369): walk the
built expression accumulating `parts`; after an `mbin`/`mrel`/`allowbreak`
node, pull the following post-operator glue into the same chunk and close
the chunk unless a `nobreak` was seen; a `newline` node closes the chunk
before it (the newline itself goes to the top level); a final non-empty
chunk is closed at the end.  Every closed chunk becomes a
`buildHTMLUnbreakable` base span. -/
def chunkLoop (options : Options) :
    List HDom → List HDom → List HDom → List HDom
  | [], parts, children =>
      if parts.isEmpty then children
      else children ++ [buildHTMLUnbreakable parts options]
  | e :: rest, parts, children =>
    if breakClass e then
      let glue := rest.takeWhile postOpGlue
      let rest' := rest.dropWhile postOpGlue
      let parts' := (parts ++ [e]) ++ glue
      let nobreak := glue.any (fun n => n.hasClass "nobreak")
      if nobreak then chunkLoop options rest' parts' children
      else chunkLoop options rest' [] (children ++ [buildHTMLUnbreakable parts' options])
    else if e.hasClass "newline" then
      -- parts.push(e) then parts.pop(): the newline is not part of the chunk
      let children' :=
        if parts.isEmpty then children
        else children ++ [buildHTMLUnbreakable parts options]
      chunkLoop options rest [] (children' ++ [e])
    else chunkLoop options rest (parts ++ [e]) children
termination_by l _ _ => l.length
decreasing_by
  all_goals simp
  all_goals
    have h1 : (rest.dropWhile postOpGlue).length ≤ rest.length :=
      List.Sublist.length_le (List.dropWhile_sublist _)
  all_goals omega

/-- `buildHTML(tree, options)` of buildHTML.ts: strip a single outer `tag`
wrapper; build the expression as a real group; chunk it into unbreakable
base spans; when a tag was present, build it too, give it classes
`["tag"]`, append it as the final child, and after the `katex-html` root is
sized, resize the tag's strut to the root's total extent. -/
def buildHTML (P : Prims) (tree : List ParseNode) (options : Options) :
    Except ErrKind HDom :=
  let stripped : List ParseNode × Option (List ParseNode) :=
    match tree with
    | [.tag body tagl] => (body, some tagl)
    | _ => (tree, none)
  match buildExpression P stripped.1 options true (none, none) with
  | .error e => .error e
  | .ok expression =>
    let children := chunkLoop options expression [] []
    match stripped.2 with
    | none =>
        .ok ((makeSpan ["katex-html"] children none {}).setAttribute "aria-hidden" "true")
    | some tagl =>
      match buildExpression P tagl options true (none, none) with
      | .error e => .error e
      | .ok tagExpr =>
        let tagChild := (buildHTMLUnbreakable tagExpr options).setClasses ["tag"]
        let children := children ++ [tagChild]
        let htmlNode :=
          (makeSpan ["katex-html"] children none {}).setAttribute "aria-hidden" "true"
        -- adjust the strut of the tag to the height of the enclosing htmlNode
        let newTag := tagChild.withChildren
          (match tagChild.children with
            | strut :: rest =>
                strut.setStyleExtent (htmlNode.height + htmlNode.depth) (-htmlNode.depth) :: rest
            | [] => [])
        .ok (htmlNode.withChildren (children.dropLast ++ [newTag]))

/-- A JavaScript value as far as `parseTree`'s input check observes it:
a string or anything else. -/
inductive JsValue where
  | str (s : String)
  | other
deriving DecidableEq, Repr

/-- Whether a `JsValue` is a string. -/
def JsValue.isString : JsValue → Bool
  | .str _ => true
  | .other => false

/-- `parseTree(toParse, settings)` of parseTree.ts.  The `Parser` is not
part of the snapshot, so its outputs are parameters: `parserResult` (the
parsed tree), `dfTag` (whether the `\df@tag` macro was set by a `\tag`),
and `tagResult` (the separately parsed tag).  The function's own logic is
embedded: a non-string input throws `TypeError`, a `\tag` outside display
mode throws `ParseError`, and a `\tag` wraps the tree in a single `tag`
node. -/
def parseTree (toParse : JsValue) (displayMode : Bool)
    (parserResult : List ParseNode) (dfTag : Bool) (tagResult : List ParseNode) :
    Except ErrKind (List ParseNode) :=
  if !toParse.isString then
    .error (.typeError "KaTeX can only parse string typed expression")
  else if dfTag then
    if !displayMode then
      .error (.parseError "\\tag works only in display equations")
    else
      .ok [.tag parserResult tagResult]
  else
    .ok parserResult

/-- `assertParsed(group)` of delimsizing.ts lines 131-135: a `leftright`
node whose body was never filled in throws a plain `Error` (not a
`ParseError`). -/
def assertParsed (body : Option (List ParseNode)) : Except ErrKind Unit :=
  match body with
  | none => .error (.jsError "Bug: The leftright ParseNode wasn't fully parsed.")
  | some _ => .ok ()

/-- `checkSymbolNodeType(node)` of parseNode.ts restricted to the variants
of this snapshot: an `atom`, or a non-atom symbol node (`mathord`,
`textord`; `NON_ATOMS` itself lives in the missing symbols.js). -/
def checkSymbolNodeType : ParseNode → Option ParseNode
  | n@(.atom _ _ _) => some n
  | n@(.mathord _ _) => some n
  | n@(.textord _ _) => some n
  | _ => none

/-- The `delimiters` list of delimsizing.ts lines 37-53. -/
def delimiters : List String :=
  ["(", "\\lparen", ")", "\\rparen",
   "[", "\\lbrack", "]", "\\rbrack",
   "\\\x7b", "\\lbrace", "\\\x7d", "\\rbrace",
   "\\lfloor", "\\rfloor", "⌊", "⌋",
   "\\lceil", "\\rceil", "⌈", "⌉",
   "<", ">", "\\langle", "⟨", "\\rangle", "⟩", "\\lt", "\\gt",
   "\\lvert", "\\rvert", "\\lVert", "\\rVert",
   "\\lgroup", "\\rgroup", "⟮", "⟯",
   "\\lmoustache", "\\rmoustache", "⎰", "⎱",
   "/", "\\backslash",
   "|", "\\vert", "\\|", "\\Vert",
   "\\uparrow", "\\Uparrow",
   "\\downarrow", "\\Downarrow",
   "\\updownarrow", "\\Updownarrow",
   "."]

/-- `checkDelimiter(delim, context)` of delimsizing.ts lines 58-71: a
symbol node whose text is a known delimiter passes; everything else throws
`ParseError("Invalid delimiter: …")`. -/
def checkDelimiter (delim : ParseNode) (funcName : String) : Except ErrKind ParseNode :=
  match checkSymbolNodeType delim with
  | some symDelim =>
    if delimiters.contains symDelim.textOf then .ok symDelim
    else .error (.parseError ("Invalid delimiter: '" ++ symDelim.textOf ++
      "' after '" ++ funcName ++ "'"))
  | none => .error (.parseError ("Invalid delimiter: '" ++ delim.typeOf ++
      "' after '" ++ funcName ++ "'"))

/-- The `\middle` handler of delimsizing.ts lines 289-300: check the
delimiter, then throw `ParseError("\middle without preceding \left")` when
the parser's `leftrightDepth` is zero. -/
def middleHandler (leftrightDepth : Nat) (arg : ParseNode) (mode : Mode) :
    Except ErrKind ParseNode :=
  match checkDelimiter arg "\\middle" with
  | .error e => .error e
  | .ok delim =>
    if leftrightDepth = 0 then
      .error (.parseError "\\middle without preceding \\left")
    else
      .ok (.middle mode delim.textOf)

/-- `assertNodeType(node, type)` of parseNode.ts: a mismatch throws a plain
`Error`, not a `ParseError`. -/
def assertNodeType (node : Option ParseNode) (ty : String) : Except ErrKind ParseNode :=
  match node with
  | some n =>
    if n.typeOf = ty then .ok n
    else .error (.jsError ("Expected node of type " ++ ty ++
      ", but got node of type " ++ n.typeOf))
  | none => .error (.jsError ("Expected node of type " ++ ty ++ ", but got null"))

/-- Modelled from the spec: `utils.escape` (utils.js is outside the
snapshot) — standard HTML escaping of `& < > " '` used for "valid attribute
escaping" (§8.10). -/
def escapeChar (c : Char) : String :=
  match c with
  | '&' => "&amp;"
  | '>' => "&gt;"
  | '<' => "&lt;"
  | '"' => "&quot;"
  | '\'' => "&#x27;"
  | _ => String.singleton c

/-- Modelled from the spec: `utils.escape(text)`, see `escapeChar`. -/
def utilsEscape (s : String) : String :=
  String.join (s.toList.map escapeChar)

/-- Modelled from the spec: `utils.hyphenate` — a camelCase style name is
written hyphenated in markup (`marginRight` → `margin-right`). -/
def hyphenate (s : String) : String :=
  String.join (s.toList.map (fun c =>
    if c.isUpper then "-" ++ String.singleton c.toLower else String.singleton c))

/-- The `Img` node of domTree.ts lines 256-318: `src`, `alt`, classes fixed
to `["mord"]` by the constructor, and an inline style kept as the list of
its (styleName, value) properties in insertion order. -/
structure Img where
  src : String
  alt : String
  style : List (String × String)
deriving DecidableEq, Repr

/-- The `classes` of an `Img` (the constructor sets `["mord"]`). -/
def Img.classes (_ : Img) : List String := ["mord"]

/-- `Img.toMarkup` of domTree.ts lines 297-313, transcribed character for
character: note the markup opens with `src='` + src + ` 'alt='` + alt +
`' `, appends an optional escaped style attribute, and closes with `'/>`. -/
def Img.toMarkup (i : Img) : String :=
  let markup := "<img  src='" ++ i.src ++ " 'alt='" ++ i.alt ++ "' "
  let styles := String.join (i.style.map (fun p => hyphenate p.1 ++ ":" ++ p.2 ++ ";"))
  let markup :=
    if styles ≠ "" then markup ++ " style=\"" ++ utilsEscape styles ++ "\""
    else markup
  markup ++ "'/>"

/-- The MathML dom nodes of mathMLTree.js as the snapshot's mathml builders
use them: an element node with a tag, children and attributes
(`MathNode`), a text leaf (`TextNode`), or a document fragment (tree.ts;
`MathDomNode` includes it). -/
inductive MathDomNode where
  | mathNode (ty : String) (children : List MathDomNode)
      (attributes : List (String × String))
  | textNode (text : String)
  | mfrag (children : List MathDomNode)

/-- `setAttribute` on a MathML element node (a fragment or text leaf has no
attributes). -/
def MathDomNode.setAttribute : MathDomNode → String → String → MathDomNode
  | .mathNode ty ch a, k, v => .mathNode ty ch (a ++ [(k, v)])
  | n, _, _ => n

/-- Look up an attribute of a MathML node (none on a fragment or a text
leaf). -/
def MathDomNode.getAttribute : MathDomNode → String → Option String
  | .mathNode _ _ a, k => (a.reverse.find? (fun p => p.1 = k)).map Prod.snd
  | _, _ => none

/-- The `\href` mathmlBuilder of href.ts lines 32-37, as a function of the
row `mml.buildExpressionRow(group.body, options)` returns (buildMathML.js
is outside the snapshot; per §3.4 the row is some semantic node): the
source sets `href` on `mnode` — which aliases `math` when `math` is a
`MathNode`, and is a fresh local `mrow` wrapper otherwise — and returns
`math` itself. -/
def hrefMathmlBuilder (math : MathDomNode) (url : String) : MathDomNode :=
  match math with
  | .mathNode ty ch a => (MathDomNode.mathNode ty ch a).setAttribute "href" url
  | other => other

/-- `SourceLocation` of SourceLocation.ts: a lexer identity and the
`[start, end)` offsets (`end` is spelled `endPos` here). -/
structure SourceLocation where
  lexer : Nat
  start : Nat
  endPos : Nat
deriving DecidableEq, Repr

/-- A location provider as `SourceLocation.range` sees one: something with
an optional `loc`. -/
structure Locatable where
  loc : Option SourceLocation
deriving DecidableEq, Repr

/-- `SourceLocation.range(first, second)` of SourceLocation.ts lines
140-153, with JS `undefined` as `none`: no `second` yields
`first && first.loc`; a missing `first`, a missing `loc`, or differing
lexers yield `undefined`; otherwise the merged range on the shared lexer. -/
def SourceLocation.range (first second : Option Locatable) : Option SourceLocation :=
  match second with
  | none => first.bind (fun f => f.loc)
  | some snd =>
    match first with
    | none => none
    | some fst =>
      match fst.loc, snd.loc with
      | some l1, some l2 =>
        if l1.lexer ≠ l2.lexer then none
        else some ⟨l1.lexer, l1.start, l2.endPos⟩
      | _, _ => none

/-- `SourceLocation.range` as claim C10 states it: `first.loc` when
`second` is absent; the merged span on the shared lexer when both
arguments have locations with the same lexer; `undefined` in every other
case. -/
def rangeSpec (first second : Option Locatable) : Option SourceLocation :=
  match second with
  | none =>
    match first with
    | some f => f.loc
    | none => none
  | some snd =>
    match first with
    | some fst =>
      match fst.loc, snd.loc with
      | some l1, some l2 =>
        if l1.lexer = l2.lexer then some ⟨l1.lexer, l1.start, l2.endPos⟩ else none
      | _, _ => none
    | none => none

/-- Whether a node is a partial group (`checkPartialGroup` of buildHTML.ts:
a DocumentFragment or an Anchor). -/
def HDom.isPartial : HDom → Bool
  | .frag _ _ _ _ => true
  | .anchor _ _ _ _ _ _ _ => true
  | _ => false

/-- The class arrays of the non-`mspace` entries of a list of class
arrays. -/
def nonSpaceCs (l : List (List String)) : List (List String) :=
  l.filter (fun c => !(c.head? == some "mspace"))

/-- The non-`mspace` nodes of a node list (the nodes the traversal's
callback visits, in order). -/
def nonSpaceHD (l : List HDom) : List HDom :=
  l.filter (fun n => !(n.classes.head? == some "mspace"))

/-- Claim C1's invariant on an adjacent pair of visited class arrays
`(a, b)`: `a` is not an `mbin` followed by a right canceller, and `b` is
not an `mbin` preceded by a left canceller. -/
def okPair (a b : List String) : Prop :=
  ¬(a.head? = some "mbin" ∧ optContains binRightCanceller b.head? = true) ∧
  ¬(b.head? = some "mbin" ∧ optContains binLeftCanceller a.head? = true)

/-- How the bin-cancellation pass may change one visited node's class
array: it is untouched, or its first class was `mbin` and was rewritten to
`mord`. -/
def cancElem (c c' : List String) : Prop :=
  c' = c ∨ (c' = setClass0 c "mord" ∧ c.head? = some "mbin")

/-- Concrete options used to instantiate the theorems' hypotheses. -/
def testOptions : Options :=
  { style := .TEXT, size := 6, sizeMultiplier := 1, color := none }

/-- A concrete spacing-table entry (a thin space). -/
def testThin : Measurement := { number := 3, unit := "mu" }

/-- A concrete medium space. -/
def testMed : Measurement := { number := 4, unit := "mu" }

/-- A concrete instantiation of the missing primitives, used to evaluate
the theorems at concrete inputs. -/
def testPrims : Prims where
  makeOrd := fun t _ _ _ => .symbolNode t ["mord"] 0 0 0 {}
  mathsym := fun t _ _ cls => .symbolNode t cls 0 0 0 {}
  sizedDelim := fun _ _ _ _ cls => .span cls [] 1 1 0 {} [] none
  leftRightDelim := fun _ h d _ _ cls => .span cls [] h d 0 {} [] none
  buildSizing := fun _ _ _ => .span ["mord"] [] 0 0 0 {} [] none
  buildStyling := fun _ _ _ => .span ["mord"] [] 0 0 0 {} [] none
  spacings := fun a b =>
    match a, b with
    | .mord, .mbin => some testMed
    | .mbin, .mord => some testMed
    | .mord, .mop => some testThin
    | _, _ => none
  tightSpacings := fun _ _ => none

/-! ## Theorems -/

/-- C10: `SourceLocation.range(first, second)` returns `first.loc` when
`second` is absent; a merged range on the shared lexer when both arguments
carry locations of the same lexer; and `undefined` in every other case —
it never combines locations from different lexers. -/
theorem sourceLocation_range_spec :
    (∀ first second, SourceLocation.range first second = rangeSpec first second) ∧
    (∀ fst snd r, SourceLocation.range (some fst) (some snd) = some r →
      ∃ l1 l2, fst.loc = some l1 ∧ snd.loc = some l2 ∧ l1.lexer = l2.lexer ∧
        r = ⟨l1.lexer, l1.start, l2.endPos⟩) := by
  constructor
  · intro first second
    match second with
    | none =>
      match first with
      | none => rfl
      | some f => rfl
    | some snd =>
      match first with
      | none => rfl
      | some fst =>
        match h1 : fst.loc, h2 : snd.loc with
        | some l1, some l2 =>
          simp only [SourceLocation.range, rangeSpec, h1, h2]
          by_cases h : l1.lexer = l2.lexer <;> simp [h]
        | some l1, none => simp [SourceLocation.range, rangeSpec, h1, h2]
        | none, _ => simp [SourceLocation.range, rangeSpec, h1]
  · intro fst snd r h
    simp only [SourceLocation.range] at h
    match h1 : fst.loc, h2 : snd.loc with
    | some l1, some l2 =>
      simp only [h1, h2] at h
      by_cases hl : l1.lexer = l2.lexer
      · refine ⟨l1, l2, rfl, rfl, hl, ?_⟩
        simp [hl] at h
        rw [← h, hl]
      · simp [hl] at h
    | some l1, none => simp only [h1, h2] at h; simp at h
    | none, some l2 => simp only [h1] at h; simp at h
    | none, none => simp only [h1] at h; simp at h

/-- C8 (failing evaluation): `Img.toMarkup` on a plain image emits
malformed attribute quoting — the `src` value absorbs a trailing space and
quote, `alt` is glued to it with no separating space, the values are not
escaped, and a stray `' ` precedes the self-closing bracket. -/
theorem img_toMarkup_malformed :
    Img.toMarkup { src := "a.png", alt := "x", style := [] } =
      "<img  src='a.png 'alt='x' '/>" := by
  rfl

/-- C9 (failing evaluation): the `\href` mathmlBuilder sets `href` on a
local node and returns the original `math`: when the built row is an
element node the two alias and the returned node carries the attribute,
but when the row is a document fragment the attribute is lost. -/
theorem href_mathml_attribute :
    hrefMathmlBuilder (.mfrag []) "https://x" = .mfrag [] ∧
    (hrefMathmlBuilder (.mfrag []) "https://x").getAttribute "href" = none ∧
    (hrefMathmlBuilder (.mathNode "mrow" [] []) "https://y").getAttribute "href" =
      some "https://y" := by
  refine ⟨rfl, rfl, ?_⟩
  rfl

set_option maxHeartbeats 1600000 in
/-- Error propagation through the mutually recursive builders: every error
`buildGroup`, `buildExpression` or `buildGroups` raises is a `ParseError`
(the only throw site of their own is `buildGroup`'s unknown-type check). -/
theorem builders_error_kind (P : Prims) :
    (∀ g o b e, buildGroup P g o b = .error e → e.isParseError = true) ∧
    (∀ ex o rg s e, buildExpression P ex o rg s = .error e → e.isParseError = true) ∧
    (∀ ex o e, buildGroups P ex o = .error e → e.isParseError = true) := by
  apply buildGroup.mutual_induct P
    (fun g o b => ∀ e, buildGroup P g o b = Except.error e → e.isParseError = true)
    (fun ex o rg s => ∀ e, buildExpression P ex o rg s = Except.error e → e.isParseError = true)
    (fun ex o => ∀ e, buildGroups P ex o = Except.error e → e.isParseError = true)
  case case1 =>
    intro o b e hg
    rw [buildGroup.eq_def] at hg
    simp at hg
  case case2 =>
    intro o b g built e1 hbuilt hIH e' hg
    clear hbuilt
    rcases b with _ | base <;>
    · rw [buildGroup.eq_def] at hg
      rcases g with ⟨f, m, t⟩ | ⟨m, t⟩ | ⟨m, t⟩ | ⟨m, c, body⟩ | ⟨m, u, body⟩ |
        ⟨m, sz, mc, d⟩ | ⟨m, l, r, body⟩ | ⟨m, d⟩ | ⟨m, sz, body⟩ | ⟨m, st, body⟩ |
        ⟨body, tg⟩ | ⟨ty⟩ <;>
        simp only [] at hIH hg <;>
        first
          | (simp at hg; done)
          | ((split at hg <;> simp at hg); done)
          | (injection hg with h; subst h; rfl)
          | (split at hg
             · rename_i e2 heq
               simp at hg
               subst hg
               split at heq
               · rename_i e0 heq0
                 simp at heq
                 subst heq
                 exact hIH _ heq0
               · simp at heq
             · rename_i gn heq
               first
                 | (simp at hg; done)
                 | ((split at hg <;> simp at hg); done))
  case case3 =>
    intro o g built gn hbuilt base hne hIH e' hg
    clear hbuilt
    rw [buildGroup.eq_def] at hg
    rcases g with ⟨f, m, t⟩ | ⟨m, t⟩ | ⟨m, t⟩ | ⟨m, c, body⟩ | ⟨m, u, body⟩ |
        ⟨m, sz, mc, d⟩ | ⟨m, l, r, body⟩ | ⟨m, d⟩ | ⟨m, sz, body⟩ | ⟨m, st, body⟩ |
        ⟨body, tg⟩ | ⟨ty⟩ <;>
        simp only [] at hIH hg <;>
        first
          | (simp at hg; done)
          | ((split at hg <;> simp at hg); done)
          | (injection hg with h; subst h; rfl)
          | (split at hg
             · rename_i e2 heq
               simp at hg
               subst hg
               split at heq
               · rename_i e0 heq0
                 simp at heq
                 subst heq
                 exact hIH _ heq0
               · simp at heq
             · rename_i gn heq
               first
                 | (simp at hg; done)
                 | ((split at hg <;> simp at hg); done))
  case case4 =>
    intro o g built gn hbuilt base hne hIH e' hg
    clear hbuilt
    rw [buildGroup.eq_def] at hg
    rcases g with ⟨f, m, t⟩ | ⟨m, t⟩ | ⟨m, t⟩ | ⟨m, c, body⟩ | ⟨m, u, body⟩ |
        ⟨m, sz, mc, d⟩ | ⟨m, l, r, body⟩ | ⟨m, d⟩ | ⟨m, sz, body⟩ | ⟨m, st, body⟩ |
        ⟨body, tg⟩ | ⟨ty⟩ <;>
        simp only [] at hIH hg <;>
        first
          | (simp at hg; done)
          | ((split at hg <;> simp at hg); done)
          | (injection hg with h; subst h; rfl)
          | (split at hg
             · rename_i e2 heq
               simp at hg
               subst hg
               split at heq
               · rename_i e0 heq0
                 simp at heq
                 subst heq
                 exact hIH _ heq0
               · simp at heq
             · rename_i gn heq
               first
                 | (simp at hg; done)
                 | ((split at hg <;> simp at hg); done))
  case case5 =>
    intro o g built gn hbuilt hIH e' hg
    clear hbuilt
    rw [buildGroup.eq_def] at hg
    rcases g with ⟨f, m, t⟩ | ⟨m, t⟩ | ⟨m, t⟩ | ⟨m, c, body⟩ | ⟨m, u, body⟩ |
        ⟨m, sz, mc, d⟩ | ⟨m, l, r, body⟩ | ⟨m, d⟩ | ⟨m, sz, body⟩ | ⟨m, st, body⟩ |
        ⟨body, tg⟩ | ⟨ty⟩ <;>
        simp only [] at hIH hg <;>
        first
          | (simp at hg; done)
          | ((split at hg <;> simp at hg); done)
          | (injection hg with h; subst h; rfl)
          | (split at hg
             · rename_i e2 heq
               simp at hg
               subst hg
               split at heq
               · rename_i e0 heq0
                 simp at heq
                 subst heq
                 exact hIH _ heq0
               · simp at heq
             · rename_i gn heq
               first
                 | (simp at hg; done)
                 | ((split at hg <;> simp at hg); done))
  case case6 =>
    intro ex o rg s e1 hgs ih e' hg
    rw [buildExpression.eq_def] at hg
    rw [hgs] at hg
    simp only [] at hg
    simp at hg
    subst hg
    exact ih _ hgs
  case case7 =>
    intro ex o s elems hgs ih e' hg
    rw [buildExpression.eq_def] at hg
    rw [hgs] at hg
    simp at hg
  case case8 =>
    intro ex o rg s elems hgs hrg ih e' hg
    rw [buildExpression.eq_def] at hg
    rw [hgs] at hg
    simp [hrg] at hg
  case case9 =>
    intro o e hg
    rw [buildGroups.eq_def] at hg
    simp at hg
  case case10 =>
    intro o n rest e1 hhead ih e' hg
    rw [buildGroups.eq_def] at hg
    simp only [] at hg
    rw [hhead] at hg
    simp at hg
    subst hg
    exact ih _ hhead
  case case11 =>
    intro o n rest gn hhead e1 hrest ih1 ih2 e' hg
    rw [buildGroups.eq_def] at hg
    simp only [] at hg
    rw [hhead, hrest] at hg
    simp at hg
    subst hg
    exact ih2 _ hrest
  case case12 =>
    intro o n rest gn hhead elems hrest ih1 ih2 e' hg
    rw [buildGroups.eq_def] at hg
    simp only [] at hg
    rw [hhead, hrest] at hg
    simp at hg

/-- C6 (counterexample): the claim "every exception the core raises is a
ParseError" fails at the non-string-input check of `parseTree`, which
throws a `TypeError`. -/
theorem parseTree_nonstring_typeError :
    parseTree JsValue.other true [] false [] =
      .error (.typeError "KaTeX can only parse string typed expression") ∧
    ErrKind.isParseError (.typeError "KaTeX can only parse string typed expression") =
      false := by
  exact ⟨rfl, rfl⟩

/-- C6 (amended): the errors the embedded checks and builders raise are
`ParseError`s, except the non-string-input guard of `parseTree` (a
`TypeError`) and the internal assertion helpers `assertParsed` and
`assertNodeType` (plain `Error`s). -/
theorem core_error_classification :
    (∀ dp pr tg tr, parseTree JsValue.other dp pr tg tr =
       .error (.typeError "KaTeX can only parse string typed expression")) ∧
    (∀ s dp pr tg tr e, parseTree (JsValue.str s) dp pr tg tr = .error e →
       e.isParseError = true) ∧
    (assertParsed none =
       .error (.jsError "Bug: The leftright ParseNode wasn't fully parsed.")) ∧
    (∀ d fn e, checkDelimiter d fn = .error e → e.isParseError = true) ∧
    (∀ n a m e, middleHandler n a m = .error e → e.isParseError = true) ∧
    (∀ nd ty e, assertNodeType nd ty = .error e → ∃ msg, e = .jsError msg) ∧
    (∀ P g o b e, buildGroup P g o b = .error e → e.isParseError = true) ∧
    (∀ P t o e, buildHTML P t o = .error e → e.isParseError = true) := by
  have hcdel : ∀ d fn e, checkDelimiter d fn = .error e → e.isParseError = true := by
    intro d fn e h
    unfold checkDelimiter at h
    rcases d with ⟨f, m, t⟩ | ⟨m, t⟩ | ⟨m, t⟩ | _ | _ | _ | _ | _ | _ | _ | _ | _ <;>
      simp [checkSymbolNodeType] at h <;>
      first
        | (split at h
           · simp at h
           · injection h with h1; rw [← h1]; rfl)
        | (rw [← h]; rfl)
        | (injection h with h1; rw [← h1]; rfl)
  refine ⟨?_, ?_, rfl, hcdel, ?_, ?_, ?_, ?_⟩
  · intro dp pr tg tr; rfl
  · intro s dp pr tg tr e h
    unfold parseTree at h
    by_cases htg : tg <;> by_cases hdp : dp <;>
      simp [htg, hdp, JsValue.isString] at h <;>
      (rw [← h]; rfl)
  · intro n a m e h
    unfold middleHandler at h
    cases hcd : checkDelimiter a "\\middle" with
    | error e0 =>
      rw [hcd] at h
      injection h with h1
      subst h1
      exact hcdel a "\\middle" e0 hcd
    | ok d =>
      rw [hcd] at h
      by_cases hn : n = 0
      · simp [hn] at h; rw [← h]; rfl
      · simp [hn] at h
  · intro nd ty e h
    unfold assertNodeType at h
    rcases nd with _ | n
    · exact ⟨_, ((Except.error.injEq _ _).mp h).symm⟩
    · by_cases ht : n.typeOf = ty
      · simp [ht] at h
      · simp [ht] at h
        exact ⟨_, h.symm⟩
  · exact fun P g o b e h => (builders_error_kind P).1 g o b e h
  · intro P t o e h
    unfold buildHTML at h
    dsimp only at h
    cases h1 : buildExpression P
        (match t with | [.tag body tagl] => (body, some tagl) | _ => (t, none)).1
        o true (none, none) with
    | error e0 =>
      rw [h1] at h
      simp at h
      rw [← h]
      exact (builders_error_kind P).2.1 _ _ _ _ _ h1
    | ok expr =>
      rw [h1] at h
      rcases h2 : (match t with | [.tag body tagl] => (body, some tagl) | _ => (t, none)).2 with
        _ | tagl
      · rw [h2] at h; simp at h
      · rw [h2] at h
        simp only [] at h
        cases h3 : buildExpression P tagl o true (none, none) with
        | error e0 =>
          rw [h3] at h
          simp at h
          rw [← h]
          exact (builders_error_kind P).2.1 _ _ _ _ _ h3
        | ok tagExpr =>
          rw [h3] at h
          simp at h

/-- C3: every "base" span `buildHTMLUnbreakable` produces has as its first
child a strut span whose style height is `(body.height + body.depth) em`
and whose vertical-align is `-body.depth em`, where the base span's height
and depth are the ones computed from its children. -/
theorem base_span_strut (children : List HDom) (options : Options) :
    (buildHTMLUnbreakable children options).classes.head? = some "base" ∧
    (buildHTMLUnbreakable children options).height = maxHeight children ∧
    (buildHTMLUnbreakable children options).depth = maxDepth children ∧
    ∃ strut,
      (buildHTMLUnbreakable children options).children.head? = some strut ∧
      strut.classes = ["strut"] ∧
      strut.style.height =
        some ((buildHTMLUnbreakable children options).height +
          (buildHTMLUnbreakable children options).depth) ∧
      strut.style.verticalAlign = some (-(buildHTMLUnbreakable children options).depth) := by
  refine ⟨?_, ?_, ?_, ?_⟩
  · simp [buildHTMLUnbreakable, makeSpan, initClasses, HDom.withChildren, HDom.classes]
  · simp [buildHTMLUnbreakable, makeSpan, HDom.withChildren, HDom.height]
  · simp [buildHTMLUnbreakable, makeSpan, HDom.withChildren, HDom.depth]
  · refine ⟨(makeSpan ["strut"] [] none {}).setStyleExtent
        (maxHeight children + maxDepth children) (-(maxDepth children)), ?_, ?_, ?_, ?_⟩ <;>
      simp [buildHTMLUnbreakable, makeSpan, initClasses, initStyle, HDom.withChildren,
        HDom.children, HDom.setStyleExtent, HDom.classes, HDom.style, HDom.height, HDom.depth]

theorem classes_withChildren (n : HDom) (ch : List HDom) :
    (n.withChildren ch).classes = n.classes := by
  cases n <;> rfl

theorem height_withChildren (n : HDom) (ch : List HDom) :
    (n.withChildren ch).height = n.height := by
  cases n <;> rfl

theorem depth_withChildren (n : HDom) (ch : List HDom) :
    (n.withChildren ch).depth = n.depth := by
  cases n <;> rfl

theorem unbreakable_classes (ps : List HDom) (o : Options) :
    (buildHTMLUnbreakable ps o).classes.head? = some "base" := by
  simp [buildHTMLUnbreakable, makeSpan, initClasses, HDom.withChildren, HDom.classes]

/-- Shape of the chunking loop's output: every child it emits is either an
unbreakable base span or a node with class `newline`. -/
theorem chunkLoop_shape (o : Options) : ∀ (l parts children : List HDom),
    (∀ c ∈ children, (∃ ps, c = buildHTMLUnbreakable ps o) ∨ c.hasClass "newline" = true) →
    ∀ c ∈ chunkLoop o l parts children,
      (∃ ps, c = buildHTMLUnbreakable ps o) ∨ c.hasClass "newline" = true := by
  intro l parts children
  induction l, parts, children using chunkLoop.induct o with
  | case1 parts children hemp =>
    intro hch c hc
    rw [chunkLoop.eq_def] at hc
    simp [hemp] at hc
    exact hch c hc
  | case2 parts children hemp =>
    intro hch c hc
    rw [chunkLoop.eq_def] at hc
    simp [hemp] at hc
    rcases hc with hc | hc
    · exact hch c hc
    · exact Or.inl ⟨parts, hc⟩
  | case3 e rest parts children hbr glue rest' parts' nobreak hnb ih =>
    intro hch c hc
    rw [chunkLoop.eq_def] at hc
    dsimp only at hc
    rw [if_pos hbr, if_pos hnb] at hc
    exact ih hch c hc
  | case4 e rest parts children hbr glue rest' parts' nobreak hnb ih =>
    intro hch c hc
    rw [chunkLoop.eq_def] at hc
    dsimp only at hc
    rw [if_pos hbr, if_neg hnb] at hc
    refine ih ?_ c hc
    intro c' hc'
    rcases List.mem_append.mp hc' with h' | h'
    · exact hch c' h'
    · exact Or.inl ⟨_, List.mem_singleton.mp h'⟩
  | case5 e rest parts children hbr hnew children' ih =>
    intro hch c hc
    rw [chunkLoop.eq_def] at hc
    dsimp only at hc
    rw [if_neg hbr, if_pos hnew] at hc
    refine ih ?_ c hc
    intro c' hc'
    rcases List.mem_append.mp hc' with h' | h'
    · unfold_let children' at h'
      by_cases hemp : parts.isEmpty = true
      · rw [dif_pos hemp] at h'
        exact hch c' h'
      · rw [dif_neg hemp] at h'
        rcases List.mem_append.mp h' with h2 | h2
        · exact hch c' h2
        · exact Or.inl ⟨_, List.mem_singleton.mp h2⟩
    · rw [List.mem_singleton.mp h']
      exact Or.inr hnew
  | case6 e rest parts children hbr hnew ih =>
    intro hch c hc
    rw [chunkLoop.eq_def] at hc
    dsimp only at hc
    rw [if_neg hbr, if_neg hnew] at hc
    exact ih hch c hc

theorem children_withChildren_span (cls ch h d m st a im ch') :
    ((HDom.span cls ch h d m st a im).withChildren ch').children = ch' := rfl

/-- C5: a parse tree that used `\tag` builds to a `katex-html` root whose
final child is the unique child with classes `["tag"]`, and after assembly
the tag child's strut has style height `(htmlNode.height + htmlNode.depth)
em` and vertical-align `-htmlNode.depth em` — the total extent of the root. -/
theorem tag_placement (P : Prims) (body tagl : List ParseNode) (options : Options)
    (out : HDom) (h : buildHTML P [ParseNode.tag body tagl] options = .ok out) :
    ∃ tagChild,
      out.children.getLast? = some tagChild ∧
      tagChild.classes = ["tag"] ∧
      (out.children.filter (fun c => c.classes == ["tag"])).length = 1 ∧
      ∃ strut rest, tagChild.children = strut :: rest ∧
        strut.style.height = some (out.height + out.depth) ∧
        strut.style.verticalAlign = some (-out.depth) := by
  unfold buildHTML at h
  dsimp only at h
  cases h1 : buildExpression P body options true (none, none) with
  | error e0 => rw [h1] at h; simp at h
  | ok expr =>
    rw [h1] at h
    simp only [] at h
    cases h2 : buildExpression P tagl options true (none, none) with
    | error e0 => rw [h2] at h; simp at h
    | ok tagExpr =>
      rw [h2] at h
      simp only [] at h
      injection h with h
      subst h
      set chunk := chunkLoop options expr [] [] with hchunk
      set tagChild := (buildHTMLUnbreakable tagExpr options).setClasses ["tag"] with htagc
      set htmlNode := (makeSpan ["katex-html"] (chunk ++ [tagChild]) none {}).setAttribute
        "aria-hidden" "true" with hhtml
      set newTag := tagChild.withChildren
        (match tagChild.children with
          | strut :: rest =>
              strut.setStyleExtent (htmlNode.height + htmlNode.depth) (-htmlNode.depth) :: rest
          | [] => []) with hnewtag
      have hout : (htmlNode.withChildren ((chunk ++ [tagChild]).dropLast ++ [newTag])).children =
          chunk ++ [newTag] := by
        rw [List.dropLast_concat]
        rw [hhtml]
        simp [makeSpan, HDom.setAttribute, HDom.withChildren, HDom.children]
      have htagch : tagChild.children =
          (makeSpan ["strut"] [] none {}).setStyleExtent
              (maxHeight tagExpr + maxDepth tagExpr) (-(maxDepth tagExpr)) ::
            tagExpr := by
        rw [htagc]
        rfl
      have hnewcls : newTag.classes = ["tag"] := by
        rw [hnewtag, classes_withChildren, htagc]
        rfl
      refine ⟨newTag, ?_, hnewcls, ?_, ?_⟩
      · rw [hout]
        exact List.getLast?_concat _
      · rw [hout]
        rw [List.filter_append]
        have hchunkfil : chunk.filter (fun c => c.classes == ["tag"]) = [] := by
          rw [List.filter_eq_nil_iff]
          intro c hc
          rcases chunkLoop_shape options expr [] [] (by intro c hc; simp at hc) c hc with
            ⟨ps, hps⟩ | hnl
          · subst hps
            have := unbreakable_classes ps options
            intro hbeq
            rw [beq_iff_eq] at hbeq
            rw [hbeq] at this
            simp at this
          · intro hbeq
            rw [beq_iff_eq] at hbeq
            unfold HDom.hasClass at hnl
            rw [hbeq] at hnl
            simp at hnl
        rw [hchunkfil]
        simp [hnewcls]
      · refine ⟨((makeSpan ["strut"] [] none {}).setStyleExtent
            (maxHeight tagExpr + maxDepth tagExpr) (-(maxDepth tagExpr))).setStyleExtent
            (htmlNode.height + htmlNode.depth) (-htmlNode.depth), tagExpr, ?_, ?_, ?_⟩
        · rw [hnewtag, htagch, htagc]
          simp [buildHTMLUnbreakable, makeSpan, HDom.withChildren, HDom.setClasses,
            HDom.children]
        · rw [height_withChildren, depth_withChildren]
          simp [makeSpan, HDom.setStyleExtent, HDom.style, initStyle]
        · rw [depth_withChildren]
          simp [makeSpan, HDom.setStyleExtent, HDom.style, initStyle]

theorem setClass0_head (c : List String) (s : String) :
    (setClass0 c s).head? = some s := by
  cases c <;> rfl

theorem cancElem_refl (c : List String) : cancElem c c := Or.inl rfl

theorem cancElem_head (c c' : List String) (h : cancElem c c') :
    c'.head? = c.head? ∨ c'.head? = some "mord" := by
  rcases h with h | ⟨h, _⟩
  · exact Or.inl (by rw [h])
  · exact Or.inr (by rw [h, setClass0_head])

theorem cancElem_trans (a b c : List String) (h1 : cancElem a b) (h2 : cancElem b c) :
    cancElem a c := by
  rcases h1 with h1 | ⟨h1, h1m⟩
  · rwa [h1] at h2
  · rcases h2 with h2 | ⟨h2, h2m⟩
    · exact Or.inr ⟨h2.trans h1, h1m⟩
    · rw [h1, setClass0_head] at h2m
      simp at h2m

theorem okPair_of_head_mord (a b : List String) (hb : b.head? = some "mord") :
    okPair a b := by
  constructor
  · rintro ⟨ha, hc⟩
    rw [hb] at hc
    simp [optContains, binRightCanceller] at hc
  · rintro ⟨hb2, _⟩
    rw [hb] at hb2
    simp at hb2

theorem cancelStep_fst_cancElem (p c : List String) : cancElem p (cancelStep p c).1 := by
  unfold cancelStep
  dsimp only
  split
  · next h => exact Or.inr ⟨rfl, h.1⟩
  · split
    · exact cancElem_refl p
    · exact cancElem_refl p

theorem cancelStep_snd_cancElem (p c : List String) : cancElem c (cancelStep p c).2 := by
  unfold cancelStep
  dsimp only
  split
  · exact cancElem_refl c
  · split
    · next h => exact Or.inr ⟨rfl, h.1⟩
    · exact cancElem_refl c

theorem cancelStep_okPair (p c : List String) :
    okPair (cancelStep p c).1 (cancelStep p c).2 := by
  unfold cancelStep
  dsimp only
  split
  · next h =>
    exact ⟨by
        rintro ⟨h1, _⟩
        rw [setClass0_head] at h1
        simp at h1,
      by
        rintro ⟨h1, h2⟩
        rw [h1] at h
        simp [optContains, binRightCanceller] at h
        ⟩
  · split
    · next h =>
      refine ⟨?_, ?_⟩
      · rintro ⟨h1, h2⟩
        rw [setClass0_head] at h2
        simp [optContains, binRightCanceller] at h2
      · rintro ⟨h1, _⟩
        rw [setClass0_head] at h1
        simp at h1
    · next h1 h2 =>
      rw [not_and_or] at h1 h2
      refine ⟨?_, ?_⟩
      · rintro ⟨ha, hb⟩
        rcases h1 with h1 | h1
        · exact h1 ha
        · exact h1 (by rw [hb])
      · rintro ⟨hb, ha⟩
        rcases h2 with h2 | h2
        · exact h2 hb
        · exact h2 (by rw [ha])

theorem okPair_cancElem_right (a b b' : List String) (h : okPair a b)
    (hc : cancElem b b') : okPair a b' := by
  rcases hc with hc | ⟨hc, _⟩
  · rwa [hc]
  · exact okPair_of_head_mord a b' (by rw [hc, setClass0_head])

theorem cancelRun_length (p : List String) (l : List (List String)) :
    (cancelRun p l).2.length = l.length := by
  induction l generalizing p with
  | nil => rfl
  | cons c rest ih =>
    unfold cancelRun
    split
    · simp [ih]
    · simp [ih]

theorem cancelRun_fst_cancElem (p : List String) (l : List (List String)) :
    cancElem p (cancelRun p l).1 := by
  induction l generalizing p with
  | nil => exact cancElem_refl p
  | cons c rest ih =>
    unfold cancelRun
    split
    · exact ih p
    · exact cancelStep_fst_cancElem p c

theorem cancelRun_snd_cancElem (p : List String) (l : List (List String)) :
    List.Forall₂ cancElem l (cancelRun p l).2 := by
  induction l generalizing p with
  | nil => exact List.Forall₂.nil
  | cons c rest ih =>
    unfold cancelRun
    split
    · exact List.Forall₂.cons (cancElem_refl c) (ih p)
    · refine List.Forall₂.cons ?_ (ih (cancelStep p c).2)
      exact cancElem_trans _ _ _ (cancelStep_snd_cancElem p c)
        (cancelRun_fst_cancElem (cancelStep p c).2 rest)

theorem nonSpaceCs_cons_mspace (c : List String) (l : List (List String))
    (h : c.head? = some "mspace") : nonSpaceCs (c :: l) = nonSpaceCs l := by
  simp [nonSpaceCs, List.filter, h]

theorem nonSpaceCs_cons_other (c : List String) (l : List (List String))
    (h : ¬c.head? = some "mspace") : nonSpaceCs (c :: l) = c :: nonSpaceCs l := by
  have hb : (c.head? == some "mspace") = false := by simpa using h
  simp [nonSpaceCs, List.filter_cons, hb]

theorem cancElem_not_mspace (c c' : List String) (hc : cancElem c c')
    (h : ¬c.head? = some "mspace") : ¬c'.head? = some "mspace" := by
  rcases cancElem_head c c' hc with h1 | h1
  · rw [h1]
    exact h
  · rw [h1]
    simp

theorem cancelRun_chain (p : List String) (l : List (List String)) :
    List.Chain' okPair ((cancelRun p l).1 :: nonSpaceCs (cancelRun p l).2) := by
  induction l generalizing p with
  | nil => simp [cancelRun, nonSpaceCs]
  | cons c rest ih =>
    unfold cancelRun
    split
    · next hsp =>
      simp only []
      rw [nonSpaceCs_cons_mspace _ _ hsp]
      exact ih p
    · next hsp =>
      simp only []
      have hne : ¬(cancelRun (cancelStep p c).2 rest).1.head? = some "mspace" :=
        cancElem_not_mspace _ _
          (cancElem_trans _ _ _ (cancelStep_snd_cancElem p c)
            (cancelRun_fst_cancElem (cancelStep p c).2 rest)) hsp
      rw [nonSpaceCs_cons_other _ _ hne]
      refine List.Chain'.cons ?_ (ih (cancelStep p c).2)
      exact okPair_cancElem_right _ _ _ (cancelStep_okPair p c)
        (cancelRun_fst_cancElem (cancelStep p c).2 rest)

theorem cancelRun_fst_strong (p : List String) (l : List (List String)) :
    (cancelRun p l).1 = p ∨
      ((cancelRun p l).1 = setClass0 p "mord" ∧ p.head? = some "mbin" ∧
        ∀ v, (nonSpaceCs (cancelRun p l).2).head? = some v → ¬v.head? = some "mbin") := by
  induction l generalizing p with
  | nil => exact Or.inl rfl
  | cons c rest ih =>
    unfold cancelRun
    split
    · next hsp =>
      simp only []
      rcases ih p with h | ⟨h1, h2, h3⟩
      · exact Or.inl h
      · refine Or.inr ⟨h1, h2, ?_⟩
        rw [nonSpaceCs_cons_mspace _ _ hsp]
        exact h3
    · next hsp =>
      simp only []
      have hcel : cancElem c (cancelRun (cancelStep p c).2 rest).1 :=
        cancElem_trans _ _ _ (cancelStep_snd_cancElem p c)
          (cancelRun_fst_cancElem (cancelStep p c).2 rest)
      have hne : ¬(cancelRun (cancelStep p c).2 rest).1.head? = some "mspace" :=
        cancElem_not_mspace _ _ hcel hsp
      rw [nonSpaceCs_cons_other _ _ hne]
      unfold cancelStep
      dsimp only
      split
      · next hcond =>
        refine Or.inr ⟨rfl, hcond.1, ?_⟩
        intro v hv hmb
        simp only [List.head?_cons, Option.some.injEq] at hv
        subst hv
        have hcel2 : cancElem c (cancelRun c rest).1 := cancelRun_fst_cancElem c rest
        rcases cancElem_head _ _ hcel2 with h1 | h1
        · rw [hmb] at h1
          have h2 := hcond.2
          rw [← h1] at h2
          simp [optContains, binRightCanceller] at h2
        · rw [hmb] at h1
          simp at h1
      · split
        · exact Or.inl rfl
        · exact Or.inl rfl

theorem cancelRun_cons (p c : List String) (rest : List (List String)) :
    cancelRun p (c :: rest) =
      if c.head? = some "mspace" then
        ((cancelRun p rest).1, c :: (cancelRun p rest).2)
      else
        ((cancelStep p c).1,
          (cancelRun (cancelStep p c).2 rest).1 :: (cancelRun (cancelStep p c).2 rest).2) := by
  rw [cancelRun]

theorem cancelRun_last (p : List String) (l : List (List String)) (x : List String) :
    ∃ y, (cancelRun p (l ++ [x])).2.getLast? = some y ∧ cancElem x y := by
  induction l generalizing p with
  | nil =>
    simp only [List.nil_append]
    by_cases hsp : x.head? = some "mspace"
    · exact ⟨x, by simp [cancelRun_cons, hsp, cancelRun], cancElem_refl x⟩
    · exact ⟨(cancelStep p x).2, by simp [cancelRun_cons, hsp, cancelRun],
        cancelStep_snd_cancElem p x⟩
  | cons c rest ih =>
    rw [List.cons_append, cancelRun_cons]
    by_cases hsp : c.head? = some "mspace"
    · obtain ⟨y, hy, hc⟩ := ih p
      refine ⟨y, ?_, hc⟩
      rw [if_pos hsp]
      have hlen : (cancelRun p (rest ++ [x])).2.length = rest.length + 1 := by
        rw [cancelRun_length]; simp
      cases hcr : (cancelRun p (rest ++ [x])).2 with
      | nil => rw [hcr] at hlen; simp at hlen
      | cons a t =>
        rw [hcr] at hy
        rw [List.getLast?_cons_cons]
        exact hy
    · obtain ⟨y, hy, hc⟩ := ih (cancelStep p c).2
      refine ⟨y, ?_, hc⟩
      rw [if_neg hsp]
      have hlen : (cancelRun (cancelStep p c).2 (rest ++ [x])).2.length = rest.length + 1 := by
        rw [cancelRun_length]; simp
      cases hcr : (cancelRun (cancelStep p c).2 (rest ++ [x])).2 with
      | nil => rw [hcr] at hlen; simp at hlen
      | cons a t =>
        rw [hcr] at hy
        rw [List.getLast?_cons_cons]
        exact hy

theorem classes_setClasses (n : HDom) (c : List String) (h : n.isPartial = false) :
    (n.setClasses c).classes = c := by
  cases n <;> simp [HDom.isPartial] at h ⊢ <;> rfl

theorem isPartial_setClasses (n : HDom) (c : List String) :
    (n.setClasses c).isPartial = n.isPartial := by
  cases n <;> rfl

theorem flatL_nil : flatL [] = [] := by rw [flatL]

theorem flatL_cons_frag (ch : List HDom) (h d m : ℚ) (rest : List HDom) :
    flatL (.frag ch h d m :: rest) = flatL ch ++ flatL rest := by rw [flatL]

theorem flatL_cons_anchor (cls : List String) (ch : List HDom) (h d m : ℚ)
    (st : CssStyle) (a : List (String × String)) (rest : List HDom) :
    flatL (.anchor cls ch h d m st a :: rest) = flatL ch ++ flatL rest := by rw [flatL]

theorem flatL_cons_other (n : HDom) (rest : List HDom) (h : n.isPartial = false) :
    flatL (n :: rest) = n :: flatL rest := by
  cases n
  case frag => simp [HDom.isPartial] at h
  case anchor => simp [HDom.isPartial] at h
  all_goals (rw [flatL] <;> (intros; simp_all))

theorem flatL_append (a b : List HDom) : flatL (a ++ b) = flatL a ++ flatL b := by
  induction a with
  | nil => rw [List.nil_append, flatL_nil, List.nil_append]
  | cons n rest ih =>
    rw [List.cons_append]
    cases n
    case frag ch h d m =>
      rw [flatL_cons_frag, flatL_cons_frag, ih, List.append_assoc]
    case anchor cls ch h d m st at_ =>
      rw [flatL_cons_anchor, flatL_cons_anchor, ih, List.append_assoc]
    all_goals
      rw [flatL_cons_other _ _ (by rfl), flatL_cons_other _ _ (by rfl), ih, List.cons_append]

theorem flatL_nonPartial (l : List HDom) : ∀ n ∈ flatL l, n.isPartial = false := by
  induction l using flatL.induct with
  | case1 =>
    rw [flatL_nil]
    simp
  | case2 ch h d m rest ih1 ih2 =>
    intro n hn
    rw [flatL_cons_frag] at hn
    rcases List.mem_append.mp hn with h' | h'
    · exact ih1 n h'
    · exact ih2 n h'
  | case3 cls ch h d m st a rest ih1 ih2 =>
    intro n hn
    rw [flatL_cons_anchor] at hn
    rcases List.mem_append.mp hn with h' | h'
    · exact ih1 n h'
    · exact ih2 n h'
  | case4 n rest hn1 hn2 ih =>
    intro m hm
    have hp : n.isPartial = false := by
      cases n
      case frag ch h d mm => exact (hn1 ch h d mm rfl).elim
      case anchor cls ch h d mm st a => exact (hn2 cls ch h d mm st a rfl).elim
      all_goals rfl
    rw [flatL_cons_other _ _ hp] at hm
    rcases List.mem_cons.mp hm with h' | h'
    · rw [h']; exact hp
    · exact ih m h'

theorem flatL_of_nonPartial (l : List HDom) (h : ∀ n ∈ l, n.isPartial = false) :
    flatL l = l := by
  induction l with
  | nil => exact flatL_nil
  | cons n rest ih =>
    have hn := h n (List.mem_cons_self n rest)
    have hrest : ∀ m ∈ rest, m.isPartial = false := fun m hm => h m (List.mem_cons_of_mem n hm)
    rw [flatL_cons_other _ _ hn, ih hrest]

theorem zipWith_append_left {α β γ : Type} (f : α → β → γ) (l1 l2 : List α) (cs : List β) :
    List.zipWith f (l1 ++ l2) cs = List.zipWith f l1 cs ++ List.zipWith f l2 (cs.drop l1.length) := by
  induction l1 generalizing cs with
  | nil => simp
  | cons x xs ih =>
    cases cs with
    | nil => simp
    | cons c cs' => simp [List.zipWith, ih]

theorem assignForest_nil (cs : List (List String)) : assignForest [] cs = ([], cs) := by
  rw [assignForest]

theorem assignForest_frag (ch : List HDom) (h d m : ℚ) (rest : List HDom)
    (cs : List (List String)) :
    assignForest (.frag ch h d m :: rest) cs =
      (HDom.frag (assignForest ch cs).1 h d m ::
          (assignForest rest (assignForest ch cs).2).1,
        (assignForest rest (assignForest ch cs).2).2) := by
  rw [assignForest]

theorem assignForest_anchor (cls : List String) (ch : List HDom) (h d m : ℚ)
    (st : CssStyle) (at_ : List (String × String)) (rest : List HDom)
    (cs : List (List String)) :
    assignForest (.anchor cls ch h d m st at_ :: rest) cs =
      (HDom.anchor cls (assignForest ch cs).1 h d m st at_ ::
          (assignForest rest (assignForest ch cs).2).1,
        (assignForest rest (assignForest ch cs).2).2) := by
  rw [assignForest]

theorem assignForest_other (n : HDom) (rest : List HDom) (c : List String)
    (cs : List (List String)) (hp : n.isPartial = false) :
    assignForest (n :: rest) (c :: cs) =
      (n.setClasses c :: (assignForest rest cs).1, (assignForest rest cs).2) := by
  cases n
  case frag => simp [HDom.isPartial] at hp
  case anchor => simp [HDom.isPartial] at hp
  all_goals (rw [assignForest] <;> (intros; simp_all))

theorem assign_spec (g : List HDom) (cs : List (List String))
    (hlen : (flatL g).length ≤ cs.length) :
    flatL (assignForest g cs).1 = List.zipWith HDom.setClasses (flatL g) cs ∧
    (assignForest g cs).2 = cs.drop (flatL g).length := by
  induction g, cs using assignForest.induct with
  | case1 cs =>
    rw [assignForest_nil, flatL_nil]
    simp
  | case2 ch h d m rest cs a ih1 ih2 =>
    rw [flatL_cons_frag, List.length_append] at hlen
    have h1 : (flatL ch).length ≤ cs.length := by omega
    obtain ⟨e1, e2⟩ := ih1 h1
    have h2 : (flatL rest).length ≤ (assignForest ch cs).2.length := by
      rw [e2, List.length_drop]
      omega
    have e34 := ih2 h2
    have e3 : flatL (assignForest rest (assignForest ch cs).2).1 =
        List.zipWith HDom.setClasses (flatL rest) (assignForest ch cs).2 := e34.1
    have e4 : (assignForest rest (assignForest ch cs).2).2 =
        List.drop (flatL rest).length (assignForest ch cs).2 := e34.2
    rw [assignForest_frag]
    constructor
    · rw [flatL_cons_frag, flatL_cons_frag, e1, e3, e2, zipWith_append_left]
    · rw [e4, e2, List.drop_drop, flatL_cons_frag, List.length_append]
  | case3 cls ch h d m st at_ rest cs a ih1 ih2 =>
    rw [flatL_cons_anchor, List.length_append] at hlen
    have h1 : (flatL ch).length ≤ cs.length := by omega
    obtain ⟨e1, e2⟩ := ih1 h1
    have h2 : (flatL rest).length ≤ (assignForest ch cs).2.length := by
      rw [e2, List.length_drop]
      omega
    have e34 := ih2 h2
    have e3 : flatL (assignForest rest (assignForest ch cs).2).1 =
        List.zipWith HDom.setClasses (flatL rest) (assignForest ch cs).2 := e34.1
    have e4 : (assignForest rest (assignForest ch cs).2).2 =
        List.drop (flatL rest).length (assignForest ch cs).2 := e34.2
    rw [assignForest_anchor]
    constructor
    · rw [flatL_cons_anchor, flatL_cons_anchor, e1, e3, e2, zipWith_append_left]
    · rw [e4, e2, List.drop_drop, flatL_cons_anchor, List.length_append]
  | case4 n rest hn1 hn2 =>
    have hp : n.isPartial = false := by
      cases n
      case frag ch h d mm => exact (hn1 ch h d mm rfl).elim
      case anchor cls ch h d mm st a => exact (hn2 cls ch h d mm st a rfl).elim
      all_goals rfl
    rw [flatL_cons_other _ _ hp] at hlen
    simp at hlen
  | case5 n rest c cs hn1 hn2 ih =>
    have hp : n.isPartial = false := by
      cases n
      case frag ch h d mm => exact (hn1 ch h d mm rfl).elim
      case anchor cls ch h d mm st a => exact (hn2 cls ch h d mm st a rfl).elim
      all_goals rfl
    rw [flatL_cons_other _ _ hp] at hlen
    simp only [List.length_cons] at hlen
    have h1 : (flatL rest).length ≤ cs.length := by omega
    obtain ⟨e1, e2⟩ := ih h1
    rw [assignForest_other n rest c cs hp]
    constructor
    · rw [flatL_cons_other _ _ hp, flatL_cons_other]
      · rw [e1]
        rfl
      · rw [isPartial_setClasses]
        exact hp
    · rw [e2, flatL_cons_other _ _ hp]
      rfl
theorem join_append_h {α : Type} (l₁ l₂ : List (List α)) :
    (l₁ ++ l₂).join = l₁.join ++ l₂.join := by
  simp

theorem join_cons_h {α : Type} (x : List α) (l : List (List α)) :
    (x :: l).join = x ++ l.join := by
  simp

theorem expandForest_nil (es : List (List HDom)) : expandForest [] es = ([], es) := by
  rw [expandForest]

theorem expandForest_frag (ch : List HDom) (h d m : ℚ) (rest : List HDom)
    (es : List (List HDom)) :
    expandForest (.frag ch h d m :: rest) es =
      (HDom.frag (expandForest ch es).1 h d m ::
          (expandForest rest (expandForest ch es).2).1,
        (expandForest rest (expandForest ch es).2).2) := by
  rw [expandForest]

theorem expandForest_anchor (cls : List String) (ch : List HDom) (h d m : ℚ)
    (st : CssStyle) (at_ : List (String × String)) (rest : List HDom)
    (es : List (List HDom)) :
    expandForest (.anchor cls ch h d m st at_ :: rest) es =
      (HDom.anchor cls (expandForest ch es).1 h d m st at_ ::
          (expandForest rest (expandForest ch es).2).1,
        (expandForest rest (expandForest ch es).2).2) := by
  rw [expandForest]

theorem expandForest_other (n : HDom) (rest : List HDom) (e : List HDom)
    (es : List (List HDom)) (hp : n.isPartial = false) :
    expandForest (n :: rest) (e :: es) =
      (e ++ (expandForest rest es).1, (expandForest rest es).2) := by
  cases n
  case frag => simp [HDom.isPartial] at hp
  case anchor => simp [HDom.isPartial] at hp
  all_goals (rw [expandForest] <;> (intros; simp_all))

theorem expand_spec (g : List HDom) (es : List (List HDom))
    (hlen : (flatL g).length ≤ es.length) :
    flatL (expandForest g es).1 =
      (List.map flatL (es.take (flatL g).length)).join ∧
    (expandForest g es).2 = es.drop (flatL g).length := by
  induction g, es using expandForest.induct with
  | case1 es =>
    rw [expandForest_nil, flatL_nil]
    simp
  | case2 ch h d m rest es a ih1 ih2 =>
    rw [flatL_cons_frag, List.length_append] at hlen
    have h1 : (flatL ch).length ≤ es.length := by omega
    obtain ⟨e1, e2⟩ := ih1 h1
    have h2 : (flatL rest).length ≤ (expandForest ch es).2.length := by
      rw [e2, List.length_drop]
      omega
    have e34 := ih2 h2
    have e3 : flatL (expandForest rest (expandForest ch es).2).1 =
        (List.map flatL ((expandForest ch es).2.take (flatL rest).length)).join := e34.1
    have e4 : (expandForest rest (expandForest ch es).2).2 =
        (expandForest ch es).2.drop (flatL rest).length := e34.2
    rw [expandForest_frag]
    constructor
    · rw [flatL_cons_frag, flatL_cons_frag, e1, e3, e2, List.length_append,
        List.take_add, List.map_append, join_append_h]
    · rw [e4, e2, List.drop_drop, flatL_cons_frag, List.length_append]
  | case3 cls ch h d m st at_ rest es a ih1 ih2 =>
    rw [flatL_cons_anchor, List.length_append] at hlen
    have h1 : (flatL ch).length ≤ es.length := by omega
    obtain ⟨e1, e2⟩ := ih1 h1
    have h2 : (flatL rest).length ≤ (expandForest ch es).2.length := by
      rw [e2, List.length_drop]
      omega
    have e34 := ih2 h2
    have e3 : flatL (expandForest rest (expandForest ch es).2).1 =
        (List.map flatL ((expandForest ch es).2.take (flatL rest).length)).join := e34.1
    have e4 : (expandForest rest (expandForest ch es).2).2 =
        (expandForest ch es).2.drop (flatL rest).length := e34.2
    rw [expandForest_anchor]
    constructor
    · rw [flatL_cons_anchor, flatL_cons_anchor, e1, e3, e2, List.length_append,
        List.take_add, List.map_append, join_append_h]
    · rw [e4, e2, List.drop_drop, flatL_cons_anchor, List.length_append]
  | case4 n rest hn1 hn2 =>
    have hp : n.isPartial = false := by
      cases n
      case frag ch h d mm => exact (hn1 ch h d mm rfl).elim
      case anchor cls ch h d mm st a => exact (hn2 cls ch h d mm st a rfl).elim
      all_goals rfl
    rw [flatL_cons_other _ _ hp] at hlen
    simp at hlen
  | case5 n rest e es hn1 hn2 ih =>
    have hp : n.isPartial = false := by
      cases n
      case frag ch h d mm => exact (hn1 ch h d mm rfl).elim
      case anchor cls ch h d mm st a => exact (hn2 cls ch h d mm st a rfl).elim
      all_goals rfl
    rw [flatL_cons_other _ _ hp] at hlen
    simp only [List.length_cons] at hlen
    have h1 : (flatL rest).length ≤ es.length := by omega
    obtain ⟨e1, e2⟩ := ih h1
    rw [expandForest_other n rest e es hp]
    constructor
    · rw [flatL_append, e1, flatL_cons_other _ _ hp, List.length_cons,
        List.take_succ_cons, List.map_cons, join_cons_h]
    · rw [e2, flatL_cons_other _ _ hp]
      rfl
theorem specSpacing_decomp (cb : HDom → HDom → Option HDom) (prev : HDom)
    (l : List HDom) :
    specSpacing cb prev l = specSpacingHead cb prev l ++ specSpacingTail cb prev l := by
  rw [specSpacing]
  split
  · next h => simp [specSpacingHead, specSpacingTail, h]
  · next nxt rest h => simp [specSpacingHead, specSpacingTail, h]

theorem specSpacingHead_cons_mspace (cb : HDom → HDom → Option HDom) (prev c : HDom)
    (l : List HDom) (hc : c.classes.head? = some "mspace") :
    specSpacingHead cb prev (c :: l) = specSpacingHead cb prev l := by
  unfold specSpacingHead
  rw [List.dropWhile_cons_of_pos]
  simp [hc]

theorem specSpacingTail_cons_mspace (cb : HDom → HDom → Option HDom) (prev c : HDom)
    (l : List HDom) (hc : c.classes.head? = some "mspace") :
    specSpacingTail cb prev (c :: l) = c :: specSpacingTail cb prev l := by
  unfold specSpacingTail
  rw [List.dropWhile_cons_of_pos (by simp [hc]), List.takeWhile_cons_of_pos (by simp [hc])]
  split
  · rfl
  · simp

theorem specSpacingHead_cons_other (cb : HDom → HDom → Option HDom) (prev c : HDom)
    (l : List HDom) (hc : ¬c.classes.head? = some "mspace") :
    specSpacingHead cb prev (c :: l) = prev :: (cb c prev).toList := by
  unfold specSpacingHead
  rw [List.dropWhile_cons_of_neg (by simp [hc])]

theorem specSpacingTail_cons_other (cb : HDom → HDom → Option HDom) (prev c : HDom)
    (l : List HDom) (hc : ¬c.classes.head? = some "mspace") :
    specSpacingTail cb prev (c :: l) = specSpacing cb c l := by
  unfold specSpacingTail
  rw [List.dropWhile_cons_of_neg (by simp [hc]), List.takeWhile_cons_of_neg (by simp [hc])]
  simp

theorem specSpacingHead_nil (cb : HDom → HDom → Option HDom) (prev : HDom) :
    specSpacingHead cb prev [] = [prev] := by
  simp [specSpacingHead]

theorem specSpacingTail_nil (cb : HDom → HDom → Option HDom) (prev : HDom) :
    specSpacingTail cb prev [] = [] := by
  simp [specSpacingTail]

theorem glueRun_spec (cb : HDom → HDom → Option HDom) (l : List HDom) (prev : HDom) :
    (glueRun cb prev l).1 = specSpacingHead cb prev l ∧
    (glueRun cb prev l).2.join = specSpacingTail cb prev l := by
  induction l generalizing prev with
  | nil =>
    constructor
    · rw [glueRun, specSpacingHead_nil]
    · rw [glueRun, specSpacingTail_nil]
      rfl
  | cons c rest ih =>
    by_cases hc : c.classes.head? = some "mspace"
    · rw [glueRun, if_pos hc]
      constructor
      · rw [specSpacingHead_cons_mspace cb prev c rest hc]
        exact (ih prev).1
      · rw [specSpacingTail_cons_mspace cb prev c rest hc]
        show ([c] :: (glueRun cb prev rest).2).join = _
        rw [join_cons_h, (ih prev).2]
        rfl
    · rw [glueRun, if_neg hc]
      constructor
      · rw [specSpacingHead_cons_other cb prev c rest hc]
        rcases hg : cb c prev with _ | g
        · simp [hg]
        · simp [hg]
      · rw [specSpacingTail_cons_other cb prev c rest hc]
        rcases hg : cb c prev with _ | g
        · simp only [hg]
          show ((glueRun cb c rest).1 :: (glueRun cb c rest).2).join = _
          rw [join_cons_h, (ih c).1, (ih c).2, specSpacing_decomp]
        · simp only [hg]
          show ((glueRun cb c rest).1 :: (glueRun cb c rest).2).join = _
          rw [join_cons_h, (ih c).1, (ih c).2, specSpacing_decomp]
theorem glueRun_length (cb : HDom → HDom → Option HDom) (l : List HDom) (prev : HDom) :
    (glueRun cb prev l).2.length = l.length := by
  induction l generalizing prev with
  | nil => rfl
  | cons c rest ih =>
    by_cases hc : c.classes.head? = some "mspace"
    · rw [glueRun, if_pos hc]
      simp [ih prev]
    · rw [glueRun, if_neg hc]
      rcases hg : cb c prev with _ | g
      · simp [hg, ih c]
      · simp [hg, ih c]

theorem glueRun_elements (cb : HDom → HDom → Option HDom) (l : List HDom) (prev : HDom) :
    (∀ x ∈ (glueRun cb prev l).1, x = prev ∨ ∃ a b, cb a b = some x) ∧
    (∀ e ∈ (glueRun cb prev l).2, ∀ x ∈ e, x ∈ l ∨ ∃ a b, cb a b = some x) := by
  induction l generalizing prev with
  | nil =>
    constructor
    · intro x hx
      rw [glueRun] at hx
      simp at hx
      exact Or.inl hx
    · intro e he
      rw [glueRun] at he
      simp at he
  | cons c rest ih =>
    by_cases hc : c.classes.head? = some "mspace"
    · rw [glueRun, if_pos hc]
      constructor
      · intro x hx
        simp only at hx
        exact (ih prev).1 x hx
      · intro e he x hx
        simp only [List.mem_cons] at he
        rcases he with he | he
        · subst he
          simp at hx
          subst hx
          exact Or.inl (by simp)
        · rcases (ih prev).2 e he x hx with h | h
          · exact Or.inl (List.mem_cons_of_mem c h)
          · exact Or.inr h
    · rw [glueRun, if_neg hc]
      rcases hg : cb c prev with _ | g
      · simp only [hg]
        constructor
        · intro x hx
          simp at hx
          exact Or.inl hx
        · intro e he x hx
          simp only [List.mem_cons] at he
          rcases he with he | he
          · subst he
            rcases (ih c).1 x hx with h | h
            · exact Or.inl (by simp [h])
            · exact Or.inr h
          · rcases (ih c).2 e he x hx with h | h
            · exact Or.inl (List.mem_cons_of_mem c h)
            · exact Or.inr h
      · simp only [hg]
        constructor
        · intro x hx
          simp at hx
          rcases hx with hx | hx
          · exact Or.inl hx
          · exact Or.inr ⟨c, prev, by rw [hg, hx]⟩
        · intro e he x hx
          simp only [List.mem_cons] at he
          rcases he with he | he
          · subst he
            rcases (ih c).1 x hx with h | h
            · exact Or.inl (by simp [h])
            · exact Or.inr h
          · rcases (ih c).2 e he x hx with h | h
            · exact Or.inl (List.mem_cons_of_mem c h)
            · exact Or.inr h

theorem glueRun_snd_nonSpace (cb : HDom → HDom → Option HDom) (l : List HDom) (prev : HDom)
    (hcb : ∀ a b g, cb a b = some g → g.classes.head? = some "mspace") :
    List.Forall₂ (fun e c => nonSpaceHD e = nonSpaceHD [c]) (glueRun cb prev l).2 l := by
  induction l generalizing prev with
  | nil =>
    rw [glueRun]
    exact List.Forall₂.nil
  | cons c rest ih =>
    by_cases hc : c.classes.head? = some "mspace"
    · rw [glueRun, if_pos hc]
      exact List.Forall₂.cons rfl (ih prev)
    · rw [glueRun, if_neg hc]
      have hfst : nonSpaceHD (glueRun cb c rest).1 = nonSpaceHD [c] := by
        have h1 := (glueRun_spec cb rest c).1
        rw [h1]
        unfold specSpacingHead
        split
        · rfl
        · next nxt rest2 h =>
          rcases hg2 : cb nxt c with _ | g2
          · simp [hg2]
          · have hsp := hcb nxt c g2 hg2
            simp [hg2, nonSpaceHD, hsp, hc]
      rcases hg : cb c prev with _ | g
      · simp only [hg]
        exact List.Forall₂.cons hfst (ih c)
      · simp only [hg]
        exact List.Forall₂.cons hfst (ih c)

theorem glueRun_snd_last (cb : HDom → HDom → Option HDom) (l : List HDom) (prev x : HDom)
    (hx : ¬x.classes.head? = some "mspace") :
    (glueRun cb prev (l ++ [x])).2.getLast? = some [x] := by
  induction l generalizing prev with
  | nil =>
    simp only [List.nil_append]
    rw [glueRun, if_neg hx]
    rcases hg : cb x prev with _ | g
    · simp [hg, glueRun]
    · simp [hg, glueRun]
  | cons c rest ih =>
    rw [List.cons_append]
    have hlen : ∀ p : HDom, (glueRun cb p (rest ++ [x])).2.length = rest.length + 1 := by
      intro p
      rw [glueRun_length]
      simp
    by_cases hc : c.classes.head? = some "mspace"
    · rw [glueRun, if_pos hc]
      simp only []
      have h1 := ih prev
      cases hcr : (glueRun cb prev (rest ++ [x])).2 with
      | nil =>
        have := hlen prev
        rw [hcr] at this
        simp at this
      | cons a t =>
        rw [hcr] at h1
        rw [List.getLast?_cons_cons]
        exact h1
    · rw [glueRun, if_neg hc]
      have h1 := ih c
      rcases hg : cb c prev with _ | g
      · simp only [hg]
        cases hcr : (glueRun cb c (rest ++ [x])).2 with
        | nil =>
          have := hlen c
          rw [hcr] at this
          simp at this
        | cons a t =>
          rw [hcr] at h1
          rw [List.getLast?_cons_cons]
          exact h1
      · simp only [hg]
        cases hcr : (glueRun cb c (rest ++ [x])).2 with
        | nil =>
          have := hlen c
          rw [hcr] at this
          simp at this
        | cons a t =>
          rw [hcr] at h1
          rw [List.getLast?_cons_cons]
          exact h1
theorem makeGlue_head (m : Measurement) (o : Options) :
    (makeGlue m o).classes.head? = some "mspace" := by
  simp [makeGlue, makeSpan, initClasses, HDom.classes]

theorem makeGlue_nonPartial (m : Measurement) (o : Options) :
    (makeGlue m o).isPartial = false := by
  simp [makeGlue, makeSpan, HDom.isPartial]

theorem glueCallback_some (sp tsp : DomType → DomType → Option Measurement)
    (go : Options) (n p g : HDom) (h : glueCallback sp tsp go n p = some g) :
    ∃ m, g = makeGlue m go := by
  unfold glueCallback at h
  dsimp only at h
  rcases hp : getTypeOfDomTree p with _ | a <;> rcases hn : getTypeOfDomTree n with _ | b <;>
    rw [hp, hn] at h <;> simp at h
  rcases h with ⟨m, _, hm⟩
  exact ⟨m, hm.symm⟩

theorem nonSpaceHD_append (a b : List HDom) :
    nonSpaceHD (a ++ b) = nonSpaceHD a ++ nonSpaceHD b := by
  simp [nonSpaceHD, List.filter_append]

theorem nonSpaceHD_join (xs : List (List HDom)) :
    nonSpaceHD xs.join = (xs.map nonSpaceHD).join := by
  induction xs with
  | nil => rfl
  | cons x rest ih => simp [join_cons_h, nonSpaceHD_append, ih]

theorem nonSpaceHD_singletons (l : List HDom) :
    (l.map (fun c => nonSpaceHD [c])).join = nonSpaceHD l := by
  induction l with
  | nil => rfl
  | cons c rest ih =>
    rw [List.map_cons, join_cons_h, ih]
    by_cases hc : c.classes.head? = some "mspace"
    · have h1 : nonSpaceHD [c] = [] := by simp [nonSpaceHD, hc]
      have h2 : nonSpaceHD (c :: rest) = nonSpaceHD rest := by simp [nonSpaceHD, hc]
      rw [h1, h2]
      rfl
    · have h1 : nonSpaceHD [c] = [c] := by
        simp only [nonSpaceHD, List.filter]
        have : (c.classes.head? == some "mspace") = false := by simpa using hc
        rw [this]
        rfl
      have h2 : nonSpaceHD (c :: rest) = c :: nonSpaceHD rest := by
        simp only [nonSpaceHD, List.filter_cons]
        have : (c.classes.head? == some "mspace") = false := by simpa using hc
        rw [this]
        simp
      rw [h1, h2]
      rfl

theorem forall2_map_eq {α β γ : Type} (f : α → γ) (g : β → γ) (l1 : List α) (l2 : List β)
    (h : List.Forall₂ (fun e c => f e = g c) l1 l2) : l1.map f = l2.map g := by
  induction h with
  | nil => rfl
  | cons hfc _ ih => simp [ih, hfc]
theorem surrClass_ne_mspace (s : Option DomType) (d : String) (hd : ¬d = "mspace") :
    ¬surrClass s d = "mspace" := by
  cases s with
  | none => exact hd
  | some t => cases t <;> simp [surrClass, DomType.str]

theorem makeSpan_classes_head (c : String) (ch : List HDom) (o : Option Options)
    (st : CssStyle) : (makeSpan [c] ch o st).classes.head? = some c := by
  simp [makeSpan, initClasses, HDom.classes]

theorem makeSpan_nonPartial (cls : List String) (ch : List HDom) (o : Option Options)
    (st : CssStyle) : (makeSpan cls ch o st).isPartial = false := rfl

theorem cancelStage_prev_nonPartial (groups : List HDom) (options : Options)
    (surr : Option DomType × Option DomType) :
    (cancelStage groups options surr).2.1.isPartial = false := by
  unfold cancelStage
  dsimp only
  rw [isPartial_setClasses]
  rfl

theorem cancelStage_next_nonPartial (groups : List HDom) (options : Options)
    (surr : Option DomType × Option DomType) :
    (cancelStage groups options surr).2.2.isPartial = false := by
  unfold cancelStage
  dsimp only
  rw [isPartial_setClasses]
  rfl

theorem cancelStage_next_head (groups : List HDom) (options : Options)
    (surr : Option DomType × Option DomType) :
    ∃ c, (cancelStage groups options surr).2.2.classes.head? = some c ∧
      ¬c = "mspace" := by
  unfold cancelStage
  dsimp only
  rw [classes_setClasses _ _ (makeSpan_nonPartial _ _ _ _)]
  obtain ⟨y, hy, hc⟩ := cancelRun_last
    (makeSpan [surrClass surr.1 "leftmost"] [] (some options) {}).classes
    ((flatL groups).map HDom.classes)
    (makeSpan [surrClass surr.2 "rightmost"] [] (some options) {}).classes
  rw [List.getLastD_eq_getLast?, hy]
  rcases hc with hc | ⟨hc, _⟩
  · refine ⟨surrClass surr.2 "rightmost", ?_, surrClass_ne_mspace _ _ (by simp)⟩
    simp only [Option.getD_some]
    rw [hc]
    exact makeSpan_classes_head _ _ _ _
  · refine ⟨"mord", ?_, by simp⟩
    simp only [Option.getD_some]
    rw [hc]
    exact setClass0_head _ _

theorem realGroupPasses_flat (sp tsp : DomType → DomType → Option Measurement)
    (groups : List HDom) (options go : Options)
    (surr : Option DomType × Option DomType) :
    flatL (realGroupPasses sp tsp groups options go surr) =
      (glueRun (glueCallback sp tsp go) (cancelStage groups options surr).2.1
          (flatL (cancelStage groups options surr).1 ++
            [(cancelStage groups options surr).2.2])).1.drop 1 ++
      ((glueRun (glueCallback sp tsp go) (cancelStage groups options surr).2.1
          (flatL (cancelStage groups options surr).1 ++
            [(cancelStage groups options surr).2.2])).2.dropLast).join := by
  have hout : realGroupPasses sp tsp groups options go surr =
      (glueRun (glueCallback sp tsp go) (cancelStage groups options surr).2.1
        (flatL (cancelStage groups options surr).1 ++
          [(cancelStage groups options surr).2.2])).1.drop 1 ++
      (expandForest (cancelStage groups options surr).1
        ((glueRun (glueCallback sp tsp go) (cancelStage groups options surr).2.1
          (flatL (cancelStage groups options surr).1 ++
            [(cancelStage groups options surr).2.2])).2.dropLast)).1 := rfl
  have hpn : (cancelStage groups options surr).2.1.isPartial = false :=
    cancelStage_prev_nonPartial groups options surr
  have hnx : (cancelStage groups options surr).2.2.isPartial = false :=
    cancelStage_next_nonPartial groups options surr
  rw [hout]
  rcases hsc : cancelStage groups options surr with ⟨g1, pn, nx⟩
  rw [hsc] at hpn hnx
  simp only at hpn hnx ⊢
  have hcbg : ∀ a b g, glueCallback sp tsp go a b = some g →
      g.classes.head? = some "mspace" ∧ g.isPartial = false := by
    intro a b g h
    obtain ⟨m, hm⟩ := glueCallback_some sp tsp go a b g h
    rw [hm]
    exact ⟨makeGlue_head m go, makeGlue_nonPartial m go⟩
  have hNP1 : ∀ n ∈ flatL g1 ++ [nx], n.isPartial = false := by
    intro n hn
    rcases List.mem_append.mp hn with h | h
    · exact flatL_nonPartial g1 n h
    · rw [List.mem_singleton.mp h]
      exact hnx
  have hr1NP : ∀ n ∈ (glueRun (glueCallback sp tsp go) pn (flatL g1 ++ [nx])).1,
      n.isPartial = false := by
    intro n hn
    rcases (glueRun_elements (glueCallback sp tsp go) (flatL g1 ++ [nx]) pn).1 n hn with
      h | ⟨a, b, h⟩
    · rw [h]
      exact hpn
    · exact (hcbg a b n h).2
  have hr2NP : ∀ e ∈ (glueRun (glueCallback sp tsp go) pn (flatL g1 ++ [nx])).2,
      ∀ x ∈ e, x.isPartial = false := by
    intro e he x hx
    rcases (glueRun_elements (glueCallback sp tsp go) (flatL g1 ++ [nx]) pn).2 e he x hx with
      h | ⟨a, b, h⟩
    · exact hNP1 x h
    · exact (hcbg a b x h).2
  have hlen2 : (glueRun (glueCallback sp tsp go) pn (flatL g1 ++ [nx])).2.length =
      (flatL g1).length + 1 := by
    rw [glueRun_length]
    simp
  have hlenDL : (flatL g1).length ≤
      ((glueRun (glueCallback sp tsp go) pn (flatL g1 ++ [nx])).2.dropLast).length := by
    rw [List.length_dropLast, hlen2]
    simp
  obtain ⟨hex, _⟩ := expand_spec g1
    ((glueRun (glueCallback sp tsp go) pn (flatL g1 ++ [nx])).2.dropLast) hlenDL
  rw [flatL_append, hex]
  have htake : ((glueRun (glueCallback sp tsp go) pn (flatL g1 ++ [nx])).2.dropLast).take
      (flatL g1).length = (glueRun (glueCallback sp tsp go) pn (flatL g1 ++ [nx])).2.dropLast := by
    have : (flatL g1).length =
        ((glueRun (glueCallback sp tsp go) pn (flatL g1 ++ [nx])).2.dropLast).length := by
      rw [List.length_dropLast, hlen2]
      simp
    rw [this, List.take_length]
  rw [htake]
  have hmap : List.map flatL
      ((glueRun (glueCallback sp tsp go) pn (flatL g1 ++ [nx])).2.dropLast) =
      (glueRun (glueCallback sp tsp go) pn (flatL g1 ++ [nx])).2.dropLast := by
    have h1 : ∀ e ∈ (glueRun (glueCallback sp tsp go) pn (flatL g1 ++ [nx])).2.dropLast,
        flatL e = e := by
      intro e he
      exact flatL_of_nonPartial e
        (hr2NP e ((List.dropLast_sublist _).subset he))
    calc List.map flatL ((glueRun (glueCallback sp tsp go) pn (flatL g1 ++ [nx])).2.dropLast)
        = List.map id ((glueRun (glueCallback sp tsp go) pn (flatL g1 ++ [nx])).2.dropLast) :=
          List.map_congr_left h1
      _ = _ := List.map_id _
  rw [hmap]
  have hdrop : flatL ((glueRun (glueCallback sp tsp go) pn (flatL g1 ++ [nx])).1.drop 1) =
      (glueRun (glueCallback sp tsp go) pn (flatL g1 ++ [nx])).1.drop 1 :=
    flatL_of_nonPartial _ (fun n hn => hr1NP n (List.drop_subset 1 _ hn))
  rw [hdrop]
theorem glueRun_fst_length_pos (cb : HDom → HDom → Option HDom) (l : List HDom)
    (prev : HDom) : 0 < (glueRun cb prev l).1.length := by
  rw [(glueRun_spec cb l prev).1]
  unfold specSpacingHead
  split
  · simp
  · simp

theorem cancelStage_next_not_mspace (groups : List HDom) (options : Options)
    (surr : Option DomType × Option DomType) :
    ¬(cancelStage groups options surr).2.2.classes.head? = some "mspace" := by
  obtain ⟨c, hc1, hc2⟩ := cancelStage_next_head groups options surr
  rw [hc1]
  simp [hc2]

theorem realGroupPasses_specSpacing (sp tsp : DomType → DomType → Option Measurement)
    (groups : List HDom) (options go : Options)
    (surr : Option DomType × Option DomType) :
    flatL (realGroupPasses sp tsp groups options go surr) =
      ((specSpacing (glueCallback sp tsp go) (cancelStage groups options surr).2.1
          (flatL (cancelStage groups options surr).1 ++
            [(cancelStage groups options surr).2.2])).drop 1).dropLast := by
  rw [realGroupPasses_flat sp tsp groups options go surr]
  rw [specSpacing_decomp, ← (glueRun_spec (glueCallback sp tsp go)
    (flatL (cancelStage groups options surr).1 ++ [(cancelStage groups options surr).2.2])
    (cancelStage groups options surr).2.1).1,
    ← (glueRun_spec (glueCallback sp tsp go)
    (flatL (cancelStage groups options surr).1 ++ [(cancelStage groups options surr).2.2])
    (cancelStage groups options surr).2.1).2]
  have hlast : (glueRun (glueCallback sp tsp go) (cancelStage groups options surr).2.1
      (flatL (cancelStage groups options surr).1 ++
        [(cancelStage groups options surr).2.2])).2.getLast? =
      some [(cancelStage groups options surr).2.2] :=
    glueRun_snd_last _ _ _ _ (cancelStage_next_not_mspace groups options surr)
  have hdecomp : (glueRun (glueCallback sp tsp go) (cancelStage groups options surr).2.1
      (flatL (cancelStage groups options surr).1 ++
        [(cancelStage groups options surr).2.2])).2 =
      (glueRun (glueCallback sp tsp go) (cancelStage groups options surr).2.1
      (flatL (cancelStage groups options surr).1 ++
        [(cancelStage groups options surr).2.2])).2.dropLast ++
      [[(cancelStage groups options surr).2.2]] :=
    (List.dropLast_append_getLast? _ hlast).symm
  rw [List.drop_append_of_le_length (glueRun_fst_length_pos _ _ _)]
  conv_rhs => rw [hdecomp]
  rw [join_append_h]
  have hjx : ([[(cancelStage groups options surr).2.2]] : List (List HDom)).join =
      [(cancelStage groups options surr).2.2] := by simp
  rw [hjx, ← List.append_assoc, List.dropLast_concat]

theorem realGroupPasses_nonSpace (sp tsp : DomType → DomType → Option Measurement)
    (groups : List HDom) (options go : Options)
    (surr : Option DomType × Option DomType) :
    nonSpaceHD (flatL (realGroupPasses sp tsp groups options go surr)) =
      nonSpaceHD (flatL (cancelStage groups options surr).1) := by
  rw [realGroupPasses_flat sp tsp groups options go surr, nonSpaceHD_append]
  have hcbg : ∀ a b g, glueCallback sp tsp go a b = some g →
      g.classes.head? = some "mspace" := by
    intro a b g h
    obtain ⟨m, hm⟩ := glueCallback_some sp tsp go a b g h
    rw [hm]
    exact makeGlue_head m go
  have h1 : nonSpaceHD ((glueRun (glueCallback sp tsp go)
      (cancelStage groups options surr).2.1
      (flatL (cancelStage groups options surr).1 ++
        [(cancelStage groups options surr).2.2])).1.drop 1) = [] := by
    rw [(glueRun_spec _ _ _).1]
    unfold specSpacingHead
    split
    · rfl
    · next nxt rest2 h =>
      rcases hg : glueCallback sp tsp go nxt (cancelStage groups options surr).2.1
        with _ | g
      · rfl
      · simp [nonSpaceHD, hcbg _ _ _ hg]
  rw [h1]
  have h2 : List.map nonSpaceHD (glueRun (glueCallback sp tsp go)
      (cancelStage groups options surr).2.1
      (flatL (cancelStage groups options surr).1 ++
        [(cancelStage groups options surr).2.2])).2 =
      List.map (fun c => nonSpaceHD [c])
        (flatL (cancelStage groups options surr).1 ++
          [(cancelStage groups options surr).2.2]) :=
    forall2_map_eq _ _ _ _ (glueRun_snd_nonSpace _ _ _ hcbg)
  rw [nonSpaceHD_join, List.map_dropLast, h2, ← List.map_dropLast, List.dropLast_concat,
    nonSpaceHD_singletons]
  rfl
theorem nonSpaceCs_append (a b : List (List String)) :
    nonSpaceCs (a ++ b) = nonSpaceCs a ++ nonSpaceCs b := by
  simp [nonSpaceCs, List.filter_append]

theorem nonSpaceCs_singleton_other (c : List String) (h : ¬c.head? = some "mspace") :
    nonSpaceCs [c] = [c] := by
  rw [nonSpaceCs_cons_other c [] h]
  rfl

theorem map_classes_zipWith (l : List HDom) (cs : List (List String))
    (hnp : ∀ n ∈ l, n.isPartial = false) (hlen : cs.length ≤ l.length) :
    (List.zipWith HDom.setClasses l cs).map HDom.classes = cs := by
  induction l generalizing cs with
  | nil =>
    simp at hlen
    rw [hlen]
    rfl
  | cons n rest ih =>
    cases cs with
    | nil => rfl
    | cons c cs2 =>
      simp only [List.zipWith_cons_cons, List.map_cons]
      rw [classes_setClasses n c (hnp n (by simp))]
      rw [ih cs2 (fun x hx => hnp x (List.mem_cons_of_mem n hx)) (by simpa using hlen)]

theorem nonSpace_map_classes (l : List HDom) :
    (nonSpaceHD l).map HDom.classes = nonSpaceCs (l.map HDom.classes) := by
  induction l with
  | nil => rfl
  | cons n rest ih =>
    by_cases hc : n.classes.head? = some "mspace"
    · have h1 : nonSpaceHD (n :: rest) = nonSpaceHD rest := by simp [nonSpaceHD, hc]
      rw [h1, List.map_cons, nonSpaceCs_cons_mspace _ _ hc, ih]
    · have h1 : nonSpaceHD (n :: rest) = n :: nonSpaceHD rest := by
        simp only [nonSpaceHD, List.filter_cons]
        have : (n.classes.head? == some "mspace") = false := by simpa using hc
        rw [this]
        simp
      rw [h1, List.map_cons, List.map_cons, nonSpaceCs_cons_other _ _ hc, ih]

theorem cancelStage_classes (groups : List HDom) (options : Options)
    (surr : Option DomType × Option DomType) :
    (flatL (cancelStage groups options surr).1).map HDom.classes =
      (cancelRun (makeSpan [surrClass surr.1 "leftmost"] [] (some options) {}).classes
        ((flatL groups).map HDom.classes ++
          [(makeSpan [surrClass surr.2 "rightmost"] [] (some options) {}).classes])).2.dropLast := by
  unfold cancelStage
  dsimp only
  have hlen : (flatL groups).length ≤
      ((cancelRun (makeSpan [surrClass surr.1 "leftmost"] [] (some options) {}).classes
        ((flatL groups).map HDom.classes ++
          [(makeSpan [surrClass surr.2 "rightmost"] [] (some options) {}).classes])).2.dropLast).length := by
    rw [List.length_dropLast, cancelRun_length]
    simp
  obtain ⟨h1, _⟩ := assign_spec groups _ hlen
  rw [h1]
  apply map_classes_zipWith
  · exact flatL_nonPartial groups
  · rw [List.length_dropLast, cancelRun_length]
    simp
theorem cancelRun_invariant (cl0 cr0 : String) (p0 nxc : List String)
    (mapCs : List (List String))
    (hp0 : p0.head? = some cl0) (hnx : nxc.head? = some cr0)
    (hcr_nsp : ¬cr0 = "mspace") :
    List.Chain' okPair (nonSpaceCs (cancelRun p0 (mapCs ++ [nxc])).2.dropLast) ∧
    (∀ v, (nonSpaceCs (cancelRun p0 (mapCs ++ [nxc])).2.dropLast).head? = some v →
      v.head? = some "mbin" → optContains binLeftCanceller (some cl0) = false) ∧
    (∀ w, (nonSpaceCs (cancelRun p0 (mapCs ++ [nxc])).2.dropLast).getLast? = some w →
      w.head? = some "mbin" → optContains binRightCanceller (some cr0) = false) := by
  obtain ⟨y, hy, hyel⟩ := cancelRun_last p0 mapCs nxc
  have hnxns : ¬nxc.head? = some "mspace" := by
    rw [hnx]
    simp [hcr_nsp]
  have hyns : ¬y.head? = some "mspace" := cancElem_not_mspace nxc y hyel hnxns
  have hr2eq : (cancelRun p0 (mapCs ++ [nxc])).2 =
      (cancelRun p0 (mapCs ++ [nxc])).2.dropLast ++ [y] :=
    (List.dropLast_append_getLast? y hy).symm
  have hchain := cancelRun_chain p0 (mapCs ++ [nxc])
  have hnsr2 : nonSpaceCs (cancelRun p0 (mapCs ++ [nxc])).2 =
      nonSpaceCs (cancelRun p0 (mapCs ++ [nxc])).2.dropLast ++ [y] := by
    conv_lhs => rw [hr2eq]
    rw [nonSpaceCs_append, nonSpaceCs_singleton_other y hyns]
  rw [hnsr2] at hchain
  refine ⟨?_, ?_, ?_⟩
  · exact (List.chain'_append.mp hchain.tail).1
  · intro v hv hmbin
    have hhead : (nonSpaceCs (cancelRun p0 (mapCs ++ [nxc])).2.dropLast ++ [y]).head? =
        some v := by
      cases hfc : nonSpaceCs (cancelRun p0 (mapCs ++ [nxc])).2.dropLast with
      | nil =>
        rw [hfc] at hv
        simp at hv
      | cons a t =>
        rw [hfc] at hv
        simpa using hv
    have hok : okPair (cancelRun p0 (mapCs ++ [nxc])).1 v :=
      (List.chain'_cons'.mp hchain).1 v hhead
    rcases cancelRun_fst_strong p0 (mapCs ++ [nxc]) with hf | ⟨hf1, hf2, hf3⟩
    · rw [hf] at hok
      have h2 := hok.2
      rw [hp0] at h2
      by_contra hlc
      refine h2 ⟨hmbin, ?_⟩
      revert hlc
      cases optContains binLeftCanceller (some cl0) <;> simp
    · rw [hnsr2] at hf3
      exact absurd hmbin (hf3 v hhead)
  · intro w hw hmbin
    by_contra hrc
    have hrcT : optContains binRightCanceller (some cr0) = true := by
      revert hrc
      cases optContains binRightCanceller (some cr0) <;> simp
    have hcr_ne : ¬cr0 = "mbin" := by
      intro hEq
      rw [hEq] at hrcT
      simp [optContains, binRightCanceller] at hrcT
    have hynxc : y = nxc := by
      rcases hyel with h | ⟨h1, h2⟩
      · exact h
      · rw [hnx] at h2
        simp at h2
        exact absurd h2 hcr_ne
    have hyhead : y.head? = some cr0 := by
      rw [hynxc]
      exact hnx
    have hres : List.Chain' okPair
        (((cancelRun p0 (mapCs ++ [nxc])).1 ::
          nonSpaceCs (cancelRun p0 (mapCs ++ [nxc])).2.dropLast) ++ [y]) := hchain
    obtain ⟨_, _, h3⟩ := List.chain'_append.mp hres
    have hlastw : ((cancelRun p0 (mapCs ++ [nxc])).1 ::
        nonSpaceCs (cancelRun p0 (mapCs ++ [nxc])).2.dropLast).getLast? = some w := by
      cases hfc : nonSpaceCs (cancelRun p0 (mapCs ++ [nxc])).2.dropLast with
      | nil =>
        rw [hfc] at hw
        simp at hw
      | cons a t =>
        rw [hfc] at hw
        rw [List.getLast?_cons_cons]
        exact hw
    have hok : okPair w y := h3 w hlastw y (by simp)
    refine hok.1 ⟨hmbin, ?_⟩
    rw [hyhead]
    exact hrcT
/-- C1: after `buildExpression(list, options, true, surrounding)`, traversing
the output in traversal order (descending into fragments and anchors,
skipping `mspace` nodes), adjacent pairs never leave an `mbin` next to a
left or right canceller, and the first (resp. last) non-space node is not an
`mbin` whenever the original left (resp. right) sentinel class is a left
(resp. right) canceller. -/
theorem bin_cancellation_invariant (P : Prims) (expr : List ParseNode)
    (options : Options) (surr : Option DomType × Option DomType) (out : List HDom)
    (hout : buildExpression P expr options true surr = .ok out) :
    List.Chain' okPair ((nonSpaceHD (flatL out)).map HDom.classes) ∧
    (∀ v, ((nonSpaceHD (flatL out)).map HDom.classes).head? = some v →
      v.head? = some "mbin" →
      optContains binLeftCanceller (some (surrClass surr.1 "leftmost")) = false) ∧
    (∀ w, ((nonSpaceHD (flatL out)).map HDom.classes).getLast? = some w →
      w.head? = some "mbin" →
      optContains binRightCanceller (some (surrClass surr.2 "rightmost")) = false) := by
  rw [buildExpression] at hout
  rcases hg : buildGroups P expr options with e | groups <;> rw [hg] at hout
  · simp at hout
  · simp only [if_true] at hout
    have hout2 : realGroupPasses P.spacings P.tightSpacings groups options
        (glueOptionsOf expr options) surr = out := by
      simpa using hout
    subst hout2
    have hA : (nonSpaceHD (flatL (realGroupPasses P.spacings P.tightSpacings groups
        options (glueOptionsOf expr options) surr))).map HDom.classes =
        nonSpaceCs (cancelRun
          (makeSpan [surrClass surr.1 "leftmost"] [] (some options) {}).classes
          ((flatL groups).map HDom.classes ++
            [(makeSpan [surrClass surr.2 "rightmost"] [] (some options) {}).classes])).2.dropLast := by
      rw [realGroupPasses_nonSpace, nonSpace_map_classes, cancelStage_classes]
    rw [hA]
    exact cancelRun_invariant (surrClass surr.1 "leftmost") (surrClass surr.2 "rightmost")
      _ _ _ (makeSpan_classes_head _ _ _ _) (makeSpan_classes_head _ _ _ _)
      (surrClass_ne_mspace surr.2 "rightmost" (by simp))
theorem bin_cancellation_invariant_witness :
    buildExpression testPrims [] testOptions true (none, none) = .ok ([] : List HDom) ∧
    (List.Chain' okPair ((nonSpaceHD (flatL ([] : List HDom))).map HDom.classes) ∧
    (∀ v, ((nonSpaceHD (flatL ([] : List HDom))).map HDom.classes).head? = some v →
      v.head? = some "mbin" →
      optContains binLeftCanceller (some (surrClass none "leftmost")) = false) ∧
    (∀ w, ((nonSpaceHD (flatL ([] : List HDom))).map HDom.classes).getLast? = some w →
      w.head? = some "mbin" →
      optContains binRightCanceller (some (surrClass none "rightmost")) = false)) := by
  have h : buildExpression testPrims [] testOptions true (none, none) =
      .ok ([] : List HDom) := by
    rw [buildExpression]
    rw [buildGroups]
    simp only [if_true]
    rw [realGroupPasses]
    simp [cancelStage, makeSpan, initClasses, initStyle, testOptions, surrClass,
      cancelRun, cancelStep, setClass0, optContains, flatL, assignForest, expandForest,
      glueRun, glueCallback, getTypeOfDomTree, makeGlue, KStyle.isTight,
      HDom.classes, HDom.setClasses, Options.getColor, maxHeight, maxDepth, maxFS,
      domTypeOf, List.getLastD]
  exact ⟨h, bin_cancellation_invariant testPrims [] testOptions (none, none) [] h⟩
/-- C2: with `isRealGroup` true, the flattened output equals the spec's
spacing insertion (pending previous node first, the table-driven glue
between each adjacent pair of non-space visited nodes, sentinels dropped),
where the callback inserts a glue span exactly when both atom types are
non-null and the (tight) spacing table has an entry, and the glue is built
with `glueOptions` derived from a single sizing or styling expression. -/
theorem spacing_insertion (P : Prims) (expr : List ParseNode) (options : Options)
    (surr : Option DomType × Option DomType) (groups : List HDom)
    (hg : buildGroups P expr options = .ok groups)
    (hlead : ∀ n, (flatL (cancelStage groups options surr).1).head? = some n →
      ¬n.classes.head? = some "mspace") :
    buildExpression P expr options true surr =
      .ok (realGroupPasses P.spacings P.tightSpacings groups options
        (glueOptionsOf expr options) surr) ∧
    flatL (realGroupPasses P.spacings P.tightSpacings groups options
        (glueOptionsOf expr options) surr) =
      ((specSpacing (glueCallback P.spacings P.tightSpacings (glueOptionsOf expr options))
          (cancelStage groups options surr).2.1
          (flatL (cancelStage groups options surr).1 ++
            [(cancelStage groups options surr).2.2])).drop 1).dropLast ∧
    (∀ n p g, glueCallback P.spacings P.tightSpacings (glueOptionsOf expr options) n p =
        some g →
      ∃ a b m, getTypeOfDomTree p = some a ∧ getTypeOfDomTree n = some b ∧
        (if n.hasClass "mtight" then P.tightSpacings a b else P.spacings a b) = some m ∧
        g = makeGlue m (glueOptionsOf expr options)) ∧
    (∀ n p a b m, getTypeOfDomTree p = some a → getTypeOfDomTree n = some b →
      (if n.hasClass "mtight" then P.tightSpacings a b else P.spacings a b) = some m →
      glueCallback P.spacings P.tightSpacings (glueOptionsOf expr options) n p =
        some (makeGlue m (glueOptionsOf expr options))) ∧
    (∀ x size body, expr = [.sizing x size body] →
      glueOptionsOf expr options = options.havingSize size) ∧
    (∀ x style body, expr = [.styling x style body] →
      glueOptionsOf expr options = options.havingStyle (styleMap style)) := by
  refine ⟨?_, ?_, ?_, ?_, ?_, ?_⟩
  · rw [buildExpression, hg]
    simp only [if_true]
  · exact realGroupPasses_specSpacing P.spacings P.tightSpacings groups options
      (glueOptionsOf expr options) surr
  · intro n p g h
    unfold glueCallback at h
    dsimp only at h
    rcases hp : getTypeOfDomTree p with _ | a <;> rcases hn : getTypeOfDomTree n with _ | b <;>
      rw [hp, hn] at h <;> simp at h
    obtain ⟨m, hm1, hm2⟩ := h
    exact ⟨a, b, m, rfl, rfl, hm1, hm2.symm⟩
  · intro n p a b m hp hn hm
    unfold glueCallback
    dsimp only
    rw [hp, hn]
    dsimp only
    rw [hm]
    rfl
  · intro x size body hx
    rw [hx]
    rfl
  · intro x style body hx
    rw [hx]
    rfl

theorem spacing_insertion_witness :
    (buildGroups testPrims [] testOptions = .ok ([] : List HDom) ∧
      ∀ n, (flatL (cancelStage ([] : List HDom) testOptions (none, none)).1).head? =
        some n → ¬n.classes.head? = some "mspace") ∧
    buildExpression testPrims [] testOptions true (none, none) =
      .ok (realGroupPasses testPrims.spacings testPrims.tightSpacings []
        testOptions (glueOptionsOf [] testOptions) (none, none)) := by
  have h1 : buildGroups testPrims [] testOptions = .ok ([] : List HDom) := by
    rw [buildGroups]
  have h2 : ∀ n, (flatL (cancelStage ([] : List HDom) testOptions (none, none)).1).head? =
      some n → ¬n.classes.head? = some "mspace" := by
    intro n hn
    simp [cancelStage, assignForest, flatL] at hn
  exact ⟨⟨h1, h2⟩,
    (spacing_insertion testPrims [] testOptions (none, none) [] h1 h2).1⟩
/-- C4: the `leftright` html builder returns an `minner` span whose first
child is the left delimiter and last child the right delimiter (a null
delimiter for `"."`, else `leftRightDelim` at the inner extent), where the
inner extent is the maximum height/depth over the built body excluding
`isMiddle` boxes, scaled by `options.sizeMultiplier`, and every `isMiddle`
box is replaced by `leftRightDelim` at that extent with the Options
recorded on it; the `middle` builder emits `sizedDelim(delim, 1)` with the
`{delim, options}` record attached. -/
theorem leftright_builder (P : Prims) (mode : Mode) (left right : String)
    (body : List ParseNode) (options : Options) (out : HDom)
    (hout : buildGroup P (some (.leftright mode left right body)) options none =
      .ok out) :
    (∃ inner,
      buildExpression P body options true (some .mopen, some .mclose) = .ok inner ∧
      out = leftrightPost P left right mode options inner ∧
      out.classes.head? = some "minner" ∧
      out.children =
        (if left = "." then makeNullDelimiter options ["mopen"]
         else P.leftRightDelim left
           ((inner.foldl (fun a n => if n.isMiddleOf.isSome then a else max a n.height) 0) *
             options.sizeMultiplier)
           ((inner.foldl (fun a n => if n.isMiddleOf.isSome then a else max a n.depth) 0) *
             options.sizeMultiplier) options mode ["mopen"]) ::
        (inner.map (fun n => match n.isMiddleOf with
          | some im => P.leftRightDelim im.delim
              ((inner.foldl (fun a n => if n.isMiddleOf.isSome then a else max a n.height) 0) *
                options.sizeMultiplier)
              ((inner.foldl (fun a n => if n.isMiddleOf.isSome then a else max a n.depth) 0) *
                options.sizeMultiplier) im.options mode []
          | none => n) ++
        [(if right = "." then makeNullDelimiter options ["mclose"]
          else P.leftRightDelim right
            ((inner.foldl (fun a n => if n.isMiddleOf.isSome then a else max a n.height) 0) *
              options.sizeMultiplier)
            ((inner.foldl (fun a n => if n.isMiddleOf.isSome then a else max a n.depth) 0) *
              options.sizeMultiplier) options mode ["mclose"])])) ∧
    (∀ delim o2, ¬delim = "." →
      buildGroup P (some (.middle mode delim)) o2 none =
        .ok ((P.sizedDelim delim 1 o2 mode []).setIsMiddle ⟨delim, o2⟩)) := by
  constructor
  · rw [buildGroup] at hout
    dsimp only at hout
    rcases hb : buildExpression P body options true (some .mopen, some .mclose)
      with e | inner <;> rw [hb] at hout
    · simp at hout
    · simp only [] at hout
      have hout2 : leftrightPost P left right mode options inner = out := by
        simpa using hout
      refine ⟨inner, rfl, hout2.symm, ?_, ?_⟩
      · rw [← hout2]
        unfold leftrightPost
        dsimp only
        simp [makeSpan, initClasses, HDom.classes]
      · rw [← hout2]
        unfold leftrightPost
        dsimp only
        simp only [makeSpan, HDom.children]
        congr 1
        by_cases hm : inner.any (fun n => n.isMiddleOf.isSome)
        · rw [if_pos hm]
        · rw [if_neg hm]
          have hnone : ∀ n ∈ inner, n.isMiddleOf.isSome = false := by
            intro n hn
            by_contra hcon
            refine hm (List.any_eq_true.mpr ⟨n, hn, ?_⟩)
            revert hcon
            cases n.isMiddleOf.isSome <;> simp
          congr 1
          have : ∀ n ∈ inner, (fun n => match n.isMiddleOf with
              | some im => P.leftRightDelim im.delim
                  ((inner.foldl (fun a n => if n.isMiddleOf.isSome then a else max a n.height) 0) *
                    options.sizeMultiplier)
                  ((inner.foldl (fun a n => if n.isMiddleOf.isSome then a else max a n.depth) 0) *
                    options.sizeMultiplier) im.options mode []
              | none => n) n = id n := by
            intro n hn
            have h1 := hnone n hn
            rcases him : n.isMiddleOf with _ | im
            · simp [him]
            · rw [him] at h1
              simp at h1
          rw [List.map_congr_left this, List.map_id]
  · intro delim o2 hdelim
    rw [buildGroup]
    simp [middleBuilder, hdelim, ParseNode.modeOf]
theorem leftright_builder_witness :
    buildGroup testPrims (some (.leftright .math "(" ")" [])) testOptions none =
      .ok (leftrightPost testPrims "(" ")" .math testOptions []) ∧
    ((∃ inner,
      buildExpression testPrims [] testOptions true (some .mopen, some .mclose) =
        .ok inner ∧
      leftrightPost testPrims "(" ")" .math testOptions [] =
        leftrightPost testPrims "(" ")" .math testOptions inner ∧
      (leftrightPost testPrims "(" ")" .math testOptions []).classes.head? =
        some "minner" ∧
      (leftrightPost testPrims "(" ")" .math testOptions []).children =
        (if "(" = "." then makeNullDelimiter testOptions ["mopen"]
         else testPrims.leftRightDelim "("
           ((inner.foldl (fun a n => if n.isMiddleOf.isSome then a else max a n.height) 0) *
             testOptions.sizeMultiplier)
           ((inner.foldl (fun a n => if n.isMiddleOf.isSome then a else max a n.depth) 0) *
             testOptions.sizeMultiplier) testOptions .math ["mopen"]) ::
        (inner.map (fun n => match n.isMiddleOf with
          | some im => testPrims.leftRightDelim im.delim
              ((inner.foldl (fun a n => if n.isMiddleOf.isSome then a else max a n.height) 0) *
                testOptions.sizeMultiplier)
              ((inner.foldl (fun a n => if n.isMiddleOf.isSome then a else max a n.depth) 0) *
                testOptions.sizeMultiplier) im.options .math []
          | none => n) ++
        [(if ")" = "." then makeNullDelimiter testOptions ["mclose"]
          else testPrims.leftRightDelim ")"
            ((inner.foldl (fun a n => if n.isMiddleOf.isSome then a else max a n.height) 0) *
              testOptions.sizeMultiplier)
            ((inner.foldl (fun a n => if n.isMiddleOf.isSome then a else max a n.depth) 0) *
              testOptions.sizeMultiplier) testOptions .math ["mclose"])])) ∧
    (∀ delim o2, ¬delim = "." →
      buildGroup testPrims (some (.middle .math delim)) o2 none =
        .ok ((testPrims.sizedDelim delim 1 o2 .math []).setIsMiddle ⟨delim, o2⟩))) := by
  have hbe : buildExpression testPrims [] testOptions true
      (some .mopen, some .mclose) = .ok ([] : List HDom) := by
    rw [buildExpression, buildGroups]
    simp only [if_true]
    rw [realGroupPasses]
    simp [cancelStage, makeSpan, initClasses, initStyle, testOptions, surrClass,
      cancelRun, cancelStep, setClass0, optContains, flatL, assignForest, expandForest,
      glueRun, glueCallback, getTypeOfDomTree, makeGlue, KStyle.isTight,
      HDom.classes, HDom.setClasses, Options.getColor, maxHeight, maxDepth, maxFS,
      domTypeOf, List.getLastD, testPrims, DomType.str,
      binLeftCanceller, binRightCanceller]
  have h : buildGroup testPrims (some (.leftright .math "(" ")" [])) testOptions none =
      .ok (leftrightPost testPrims "(" ")" .math testOptions []) := by
    rw [buildGroup]
    dsimp only
    rw [hbe]
    rfl
  exact ⟨h, leftright_builder testPrims .math "(" ")" [] testOptions
    (leftrightPost testPrims "(" ")" .math testOptions []) h⟩
/-- C7: the `color` builder builds its body with `isRealGroup` false and
wraps it in a `DocumentFragment`; `buildExpression` with `isRealGroup`
false is just the flat built list; and the spacing inserted between the
colored `a` and the following `+` is the same `mord`–`mbin` glue as in the
uncolored expression. -/
theorem color_partial_transparency (P : Prims) (options : Options)
    (stA stA2 stP stB : CssStyle) (sp1 sp2 : Measurement)
    (ha : P.makeOrd "a" .math (options.withColor "red") "mathord" =
      .symbolNode "a" ["mord"] 0 0 0 stA)
    (ha2 : P.makeOrd "a" .math options "mathord" = .symbolNode "a" ["mord"] 0 0 0 stA2)
    (hplus : P.mathsym "+" .math options ["mbin"] = .symbolNode "+" ["mbin"] 0 0 0 stP)
    (hb : P.makeOrd "b" .math options "mathord" = .symbolNode "b" ["mord"] 0 0 0 stB)
    (hsp1 : P.spacings .mord .mbin = some sp1)
    (hsp2 : P.spacings .mbin .mord = some sp2) :
    buildExpression P [.color .math "red" [.mathord .math "a"], .atom "bin" .math "+",
        .mathord .math "b"] options true (none, none) =
      .ok [.symbolNode "a" ["mord"] 0 0 0 stA, makeGlue sp1 options,
        .symbolNode "+" ["mbin"] 0 0 0 stP, makeGlue sp2 options,
        .symbolNode "b" ["mord"] 0 0 0 stB] ∧
    buildExpression P [.mathord .math "a", .atom "bin" .math "+", .mathord .math "b"]
        options true (none, none) =
      .ok [.symbolNode "a" ["mord"] 0 0 0 stA2, makeGlue sp1 options,
        .symbolNode "+" ["mbin"] 0 0 0 stP, makeGlue sp2 options,
        .symbolNode "b" ["mord"] 0 0 0 stB] ∧
    (∀ mode c bodyE o2 elems,
      buildExpression P bodyE (o2.withColor c) false (none, none) = .ok elems →
      buildGroup P (some (.color mode c bodyE)) o2 none = .ok (makeFragment elems)) ∧
    (∀ e o2 surr2, buildExpression P e o2 false surr2 = buildGroups P e o2) := by
  have hflat : ∀ e o2 surr2, buildExpression P e o2 false surr2 = buildGroups P e o2 := by
    intro e o2 surr2
    rw [buildExpression]
    rcases hg : buildGroups P e o2 with err | groups <;> simp
  refine ⟨?_, ?_, ?_, hflat⟩
  · have hg1 : buildGroups P [.color .math "red" [.mathord .math "a"], .atom "bin" .math "+",
        .mathord .math "b"] options =
        .ok [.symbolNode "a" ["mord"] 0 0 0 stA, .symbolNode "+" ["mbin"] 0 0 0 stP,
          .symbolNode "b" ["mord"] 0 0 0 stB] := by
      simp [buildGroups, buildGroup, ParseNode.modeOf, hflat, ha, hplus, hb, makeFragment]
    rw [buildExpression, hg1]
    simp only [if_true]
    simp [realGroupPasses, cancelStage, glueOptionsOf, makeSpan, initClasses, initStyle,
      surrClass, cancelRun, cancelStep, setClass0, optContains, binLeftCanceller,
      binRightCanceller, flatL, assignForest, expandForest, glueRun, glueCallback,
      getTypeOfDomTree, domTypeOf, HDom.classes, HDom.setClasses, HDom.hasClass,
      makeGlue, maxHeight, maxDepth, maxFS, Options.getColor, List.getLastD,
      hsp1, hsp2]
  · have hg2 : buildGroups P [.mathord .math "a", .atom "bin" .math "+",
        .mathord .math "b"] options =
        .ok [.symbolNode "a" ["mord"] 0 0 0 stA2, .symbolNode "+" ["mbin"] 0 0 0 stP,
          .symbolNode "b" ["mord"] 0 0 0 stB] := by
      simp [buildGroups, buildGroup, ParseNode.modeOf, ha2, hplus, hb]
    rw [buildExpression, hg2]
    simp only [if_true]
    simp [realGroupPasses, cancelStage, glueOptionsOf, makeSpan, initClasses, initStyle,
      surrClass, cancelRun, cancelStep, setClass0, optContains, binLeftCanceller,
      binRightCanceller, flatL, assignForest, expandForest, glueRun, glueCallback,
      getTypeOfDomTree, domTypeOf, HDom.classes, HDom.setClasses, HDom.hasClass,
      makeGlue, maxHeight, maxDepth, maxFS, Options.getColor, List.getLastD,
      hsp1, hsp2]
  · intro mode c bodyE o2 elems helems
    rw [buildGroup]
    dsimp only
    rw [helems]
theorem color_partial_transparency_witness :
    testPrims.spacings .mord .mbin = some testMed ∧
    testPrims.makeOrd "a" .math (testOptions.withColor "red") "mathord" =
      .symbolNode "a" ["mord"] 0 0 0 {} ∧
    buildExpression testPrims [.color .math "red" [.mathord .math "a"],
        .atom "bin" .math "+", .mathord .math "b"] testOptions true (none, none) =
      .ok [.symbolNode "a" ["mord"] 0 0 0 {}, makeGlue testMed testOptions,
        .symbolNode "+" ["mbin"] 0 0 0 {}, makeGlue testMed testOptions,
        .symbolNode "b" ["mord"] 0 0 0 {}] :=
  ⟨rfl, rfl, (color_partial_transparency testPrims testOptions {} {} {} {} testMed testMed
    rfl rfl rfl rfl rfl rfl).1⟩
theorem tag_placement_witness :
    ∃ out, buildHTML testPrims [ParseNode.tag [] []] testOptions = .ok out ∧
      ∃ tagChild,
        out.children.getLast? = some tagChild ∧
        tagChild.classes = ["tag"] ∧
        (out.children.filter (fun c => c.classes == ["tag"])).length = 1 ∧
        ∃ strut rest, tagChild.children = strut :: rest ∧
          strut.style.height = some (out.height + out.depth) ∧
          strut.style.verticalAlign = some (-out.depth) := by
  have hbe : buildExpression testPrims [] testOptions true (none, none) =
      .ok ([] : List HDom) := by
    rw [buildExpression, buildGroups]
    simp only [if_true]
    rw [realGroupPasses]
    simp [cancelStage, makeSpan, initClasses, initStyle, testOptions, surrClass,
      cancelRun, cancelStep, setClass0, optContains, flatL, assignForest, expandForest,
      glueRun, glueCallback, getTypeOfDomTree, makeGlue, KStyle.isTight,
      HDom.classes, HDom.setClasses, Options.getColor, maxHeight, maxDepth, maxFS,
      domTypeOf, List.getLastD]
  rcases hres : buildHTML testPrims [ParseNode.tag [] []] testOptions with e | out
  · exfalso
    unfold buildHTML at hres
    dsimp only at hres
    rw [hbe] at hres
    simp [chunkLoop, buildHTMLUnbreakable, makeSpan, initClasses, initStyle, testOptions,
      HDom.setClasses, HDom.withChildren, HDom.setAttribute, HDom.children, HDom.classes,
      HDom.setStyleExtent, maxHeight, maxDepth, maxFS, Options.getColor,
      KStyle.isTight] at hres
  · exact ⟨out, rfl, tag_placement testPrims [] [] testOptions out hres⟩
